import Mathlib

open Matrix

/-!
Verification of the from-scratch linear-algebra core of this repository
(`src/hw9/10.py`): recursive Laplace determinant, LU decomposition with
row pivoting, Jacobi eigendecomposition of symmetric matrices, SVD built
from that eigendecomposition, and PCA built on the SVD.

Modelling conventions.
* Python floats are IEEE doubles, hence exact rational numbers.  All code
  paths that use only field operations and comparisons (determinants, LU,
  the eigenvalue sort) are embedded over `ℚ`, executably, with the source's
  `EPS = 1e-10` as the exact rational `10⁻¹⁰`.  Theorems over this exact
  model describe the algorithms' behaviour with real-number semantics; the
  spec's tolerances exist to absorb floating-point rounding on top of it.
* Code paths using transcendental functions (`math.cos`, `math.sin`,
  `math.atan2`, `sqrt`) are embedded over `ℝ`; `math.atan2 y x` is the
  argument of the complex number `x + i·y`, embedded via `Complex.arg`.
* `numpy` row/column operations are embedded entrywise; working copies and
  in-place updates become pure state passing.
-/

/-- Numeric tolerance `EPS = 1e-10` of the source, as an exact rational. -/
def EPSq : ℚ := 1e-10

/-- Sum of squared entries of a matrix, i.e. the square of the Frobenius
norm computed by `np.linalg.norm(·, ord='fro')`.  Comparing the norm with a
tolerance `t ≥ 0` is equivalent to comparing this sum with `t²`. -/
def frobSq {α : Type} [CommRing α] {m n : ℕ} (M : Matrix (Fin m) (Fin n) α) : α :=
  ∑ i, ∑ j, (M i j) ^ 2

/-- Embedding of `det_recursive` (`src/hw9/10.py`): Laplace expansion along
row 0, skipping any term whose leading entry has absolute value `< EPS`.
Sizes 1 and 2 use the closed formulas of the source; the source asserts a
square matrix and never calls this at size 0 (that value is arbitrary). -/
def detRecursive : (n : ℕ) → Matrix (Fin n) (Fin n) ℚ → ℚ
  | 0, _ => 1
  | 1, A => A 0 0
  | 2, A => A 0 0 * A 1 1 - A 0 1 * A 1 0
  | n + 3, A =>
      ∑ j, if |A 0 j| < EPSq then 0 else
        (-1 : ℚ) ^ (j : ℕ) * A 0 j * detRecursive (n + 2) (A.submatrix Fin.succ j.succAbove)

/-- State of `lu_decompose_partial_pivot`: the permutation accumulator `P`,
the multiplier accumulator `L`, the working copy `U`, and the row-swap
counter. -/
structure LUState (n : ℕ) where
  P : Matrix (Fin n) (Fin n) ℚ
  L : Matrix (Fin n) (Fin n) ℚ
  U : Matrix (Fin n) (Fin n) ℚ
  swaps : ℕ

/-- First-occurrence argmax scan, as computed by `np.argmax`: replace the
current best only on a strictly larger key. -/
def argmaxFold {α β : Type} [LinearOrder β] (f : α → β) (l : List α) (b : α) : α :=
  l.foldl (fun u r => if f u < f r then r else u) b

/-- Embedding of `k + np.argmax(np.abs(U[k:, k]))`: the first row index
`≥ k` carrying the maximal absolute value in column `k`. -/
def pivotSearch {n : ℕ} (U : Matrix (Fin n) (Fin n) ℚ) (k : Fin n) : Fin n :=
  argmaxFold (fun r => |U r k|) ((List.finRange n).drop (k : ℕ)) k

/-- Row swap `M[[k, p], :] = M[[p, k], :]`. -/
def rowSwap {α : Type} {n : ℕ} (M : Matrix (Fin n) (Fin n) α) (k p : Fin n) :
    Matrix (Fin n) (Fin n) α :=
  fun i j => M (Equiv.swap k p i) j

/-- Row swap restricted to the already-computed columns `< k` of `L`:
`L[[k, p], :k] = L[[p, k], :k]`.  (For `k = 0` this is the identity, which
also covers the source's `if k > 0` guard.) -/
def swapLowerCols {n : ℕ} (L : Matrix (Fin n) (Fin n) ℚ) (k p : Fin n) :
    Matrix (Fin n) (Fin n) ℚ :=
  fun i j => if (j : ℕ) < (k : ℕ) then L (Equiv.swap k p i) j else L i j

/-- Elimination update of `U` for pivot column `k`:
`U[i, k:] -= (U[i,k]/U[k,k]) * U[k, k:]` for all rows `i > k`, guarded by
the source's inner `abs(U[k,k]) < EPS` check (the pivot row is not touched
by the row loop, so the guard is uniform in `i`). -/
def elimU {n : ℕ} (U : Matrix (Fin n) (Fin n) ℚ) (k : Fin n) : Matrix (Fin n) (Fin n) ℚ :=
  if |U k k| < EPSq then U
  else fun i j =>
    if (k : ℕ) < (i : ℕ) ∧ (k : ℕ) ≤ (j : ℕ) then U i j - U i k / U k k * U k j else U i j

/-- Multiplier update of `L` for pivot column `k`: `L[i, k] = U[i,k]/U[k,k]`
for rows `i > k`, under the same guard as `elimU`. -/
def elimL {n : ℕ} (L U : Matrix (Fin n) (Fin n) ℚ) (k : Fin n) : Matrix (Fin n) (Fin n) ℚ :=
  if |U k k| < EPSq then L
  else fun i j =>
    if (k : ℕ) < (i : ℕ) ∧ (j : ℕ) = (k : ℕ) then U i k / U k k else L i j

/-- One iteration of the pivot loop of `lu_decompose_partial_pivot`:
select the pivot row, skip the column entirely when the pivot magnitude is
below `EPS` (near-singular column), otherwise swap rows (counting the swap
only when the pivot row differs from `k`) and eliminate below the pivot. -/
def luStep {n : ℕ} (st : LUState n) (k : Fin n) : LUState n :=
  let p := pivotSearch st.U k
  if |st.U p k| < EPSq then st
  else
    let st1 : LUState n :=
      if p = k then st
      else ⟨rowSwap st.P k p, swapLowerCols st.L k p, rowSwap st.U k p, st.swaps + 1⟩
    ⟨st1.P, elimL st1.L st1.U k, elimU st1.U k, st1.swaps⟩

/-- Initial state of the LU loop: `P = I`, `L = I`, `U = A`, no swaps. -/
def luInit {n : ℕ} (A : Matrix (Fin n) (Fin n) ℚ) : LUState n :=
  ⟨1, 1, A, 0⟩

/-- The LU state after processing pivot columns `0, …, m-1`. -/
def luIter {n : ℕ} (A : Matrix (Fin n) (Fin n) ℚ) (m : ℕ) : LUState n :=
  ((List.finRange n).take m).foldl luStep (luInit A)

/-- Embedding of `lu_decompose_partial_pivot`: fold the pivot step over all
columns. -/
def luDecompose {n : ℕ} (A : Matrix (Fin n) (Fin n) ℚ) : LUState n :=
  (List.finRange n).foldl luStep (luInit A)

/-- Embedding of `det_via_lu`: product of the diagonal of `U` divided by
`det(P) = (-1)^swaps`. -/
def detViaLu {n : ℕ} (A : Matrix (Fin n) (Fin n) ℚ) : ℚ :=
  (∏ i, (luDecompose A).U i i) / (if (luDecompose A).swaps % 2 = 1 then -1 else 1)

/-- Embedding of `np.argsort(vals)[::-1]` with the deterministic (stable)
tie policy: indices sorted ascending by value, ties in original order, then
reversed.  (NumPy's default introsort is unspecified on ties; the stable
policy is the canonical deterministic model and agrees with it on the
concrete cases below.) -/
def argsortDesc {α : Type} [LinearOrder α] {n : ℕ} (vals : Fin n → α) : List (Fin n) :=
  letI : DecidableRel (fun a b : Fin n => vals a ≤ vals b) :=
    fun a b => inferInstanceAs (Decidable (vals a ≤ vals b))
  (List.insertionSort (fun a b => vals a ≤ vals b) (List.finRange n)).reverse

theorem argsortDesc_length {α : Type} [LinearOrder α] {n : ℕ} (vals : Fin n → α) :
    (argsortDesc vals).length = n := by
  simp [argsortDesc, List.length_insertionSort]

/-- The column permutation performed by `sort_eigs_desc`, as a function. -/
def sortPermFun {α : Type} [LinearOrder α] {n : ℕ} (vals : Fin n → α) : Fin n → Fin n :=
  fun k => (argsortDesc vals).get (Fin.cast (argsortDesc_length vals).symm k)

/-- Embedding of `sort_eigs_desc`: eigenvalues reordered descending, and
eigenvector columns reordered by the same index list. -/
def sortEigsDesc {α : Type} [LinearOrder α] {m n : ℕ} (vals : Fin n → α)
    (vecs : Matrix (Fin m) (Fin n) α) : (Fin n → α) × Matrix (Fin m) (Fin n) α :=
  (fun k => vals (sortPermFun vals k), fun r k => vecs r (sortPermFun vals k))

/-- The spec's concrete determinant example `A = [[2,1,3],[4,1,6],[1,-2,0]]`. -/
def exDet : Matrix (Fin 3) (Fin 3) ℚ := !![2, 1, 3; 4, 1, 6; 1, -2, 0]

/-- The LU state of `exDet` after the first pivot step (hand-computed). -/
def exSt1 : LUState 3 :=
  ⟨!![0,1,0; 1,0,0; 0,0,1], !![1,0,0; 1/2,1,0; 1/4,0,1],
    !![4,1,6; 0,1/2,0; 0,-9/4,-3/2], 1⟩

/-- The final LU state of `exDet` (hand-computed). -/
def exSt2 : LUState 3 :=
  ⟨!![0,1,0; 0,0,1; 1,0,0], !![1,0,0; 1/4,1,0; 1/2,-2/9,1],
    !![4,1,6; 0,-9/4,-3/2; 0,0,-1/3], 2⟩

/-- A diagonal matrix whose scale sits entirely below the skip threshold:
every first-row entry is dropped by `det_recursive`. -/
def exTiny : Matrix (Fin 3) (Fin 3) ℚ :=
  !![5/100000000000, 0, 0; 0, 5/100000000000, 0; 0, 0, 5/100000000000]

/-- A matrix with one sub-threshold pivot column, exercising the column
skip of `lu_decompose_partial_pivot`. -/
def exSkip : Matrix (Fin 2) (Fin 2) ℚ := !![1/20000000000, 2; 1/30000000000, 4]

/-- A pair of equal eigenvalues, for probing the tie policy of
`sort_eigs_desc`. -/
def exTie : Fin 2 → ℚ := ![5, 5]

/-- Eigenvector columns accompanying `exTie`. -/
def exVecs : Matrix (Fin 2) (Fin 2) ℚ := !![1, 2; 3, 4]

/-- A `40×40` matrix whose first column sits just below the pivot-skip
threshold (`9.9·10⁻¹¹` in every row) while the remaining columns form the
lower-triangular all-ones pattern.  Column `0` is skipped, and every later
elimination (all with multiplier exactly `1`) adds another sub-threshold
residue to column `0` of `L·U`; over `40` rows these residues accumulate to
a Frobenius residual above `10⁻⁸`. -/
def exBig : Matrix (Fin 40) (Fin 40) ℚ :=
  fun i j => if (j : ℕ) = 0 then 99/1000000000000 else if (j : ℕ) ≤ (i : ℕ) then 1 else 0

/-- Closed form of the `L` factor of `exBig` after the first `m` pivot
columns are processed: unit diagonal plus ones strictly below the diagonal
in the processed columns `1 ≤ j < m`. -/
def exBigL (m : ℕ) : Matrix (Fin 40) (Fin 40) ℚ :=
  fun i j =>
    if i = j then 1 else if 1 ≤ (j : ℕ) ∧ (j : ℕ) < m ∧ (j : ℕ) < (i : ℕ) then 1 else 0

/-- Closed form of the `U` factor of `exBig` after the first `m` pivot
columns are processed: the skipped column `0` is frozen at `9.9·10⁻¹¹`,
processed columns `1 ≤ j < m` are unit-diagonal, untouched columns keep the
all-ones lower-triangular pattern. -/
def exBigU (m : ℕ) : Matrix (Fin 40) (Fin 40) ℚ :=
  fun i j =>
    if (j : ℕ) = 0 then 99/1000000000000
    else if (j : ℕ) < m then (if i = j then 1 else 0)
    else if (j : ℕ) ≤ (i : ℕ) then 1 else 0

noncomputable section

/-- Numeric tolerance `EPS = 1e-10` of the source, over `ℝ` (for the code
paths that also use transcendental functions). -/
def EPS : ℝ := 1e-10

/-- Euclidean vector norm `np.linalg.norm(v)`. -/
def vecNorm {m : ℕ} (v : Fin m → ℝ) : ℝ :=
  Real.sqrt (∑ i, (v i) ^ 2)

/-- Embedding of `normalize`: return `v` unchanged when its norm is below
`EPS`, otherwise scale it to unit length. -/
def normalizeVec {m : ℕ} (v : Fin m → ℝ) : Fin m → ℝ :=
  if vecNorm v < EPS then v else fun i => v i / vecNorm v

/-- Frobenius norm `np.linalg.norm(M, ord='fro')`. -/
def frobNorm {m n : ℕ} (M : Matrix (Fin m) (Fin n) ℝ) : ℝ :=
  Real.sqrt (frobSq M)

/-- The off-diagonal part `M - np.diag(np.diag(M))`. -/
def offPart {n : ℕ} (S : Matrix (Fin n) (Fin n) ℝ) : Matrix (Fin n) (Fin n) ℝ :=
  S - Matrix.diagonal (fun i => S i i)

/-- Squared off-diagonal Frobenius norm. -/
def offSq {n : ℕ} (S : Matrix (Fin n) (Fin n) ℝ) : ℝ :=
  frobSq (offPart S)

/-- Embedding of the source's `offdiag_norm`. -/
def offNorm {n : ℕ} (S : Matrix (Fin n) (Fin n) ℝ) : ℝ :=
  Real.sqrt (offSq S)

/-- Embedding of `math.atan2 y x`: the argument of the complex number
`x + i·y` (the standard two-argument arctangent with range `(-π, π]`). -/
def atan2 (y x : ℝ) : ℝ :=
  Complex.arg ⟨x, y⟩

/-- Rotation angle chosen by `jacobi_eigen_symmetric` for the pivot pair
`(i, j)`: `π/4` when the two diagonal entries agree within `EPS`, otherwise
`0.5·atan2(2·S[i,j], S[j,j] - S[i,i])`. -/
def rotAngle {n : ℕ} (S : Matrix (Fin n) (Fin n) ℝ) (i j : Fin n) : ℝ :=
  if |S i i - S j j| < EPS then Real.pi / 4
  else (1 / 2) * atan2 (2 * S i j) (S j j - S i i)

/-- The Givens rotation matrix assembled by the source: identity except
`G[i,i] = G[j,j] = c`, `G[i,j] = s`, `G[j,i] = -s`. -/
def rotG {n : ℕ} (i j : Fin n) (c s : ℝ) : Matrix (Fin n) (Fin n) ℝ :=
  fun t u =>
    if t = i ∧ u = i then c
    else if t = j ∧ u = j then c
    else if t = i ∧ u = j then s
    else if t = j ∧ u = i then -s
    else if t = u then 1 else 0

/-- One Jacobi update `S ← GᵀSG`, `Q ← QG` at pivot pair `(i, j)`. -/
def jacobiStepSQ {n : ℕ} (SQ : Matrix (Fin n) (Fin n) ℝ × Matrix (Fin n) (Fin n) ℝ)
    (i j : Fin n) : Matrix (Fin n) (Fin n) ℝ × Matrix (Fin n) (Fin n) ℝ :=
  ((rotG i j (Real.cos (rotAngle SQ.1 i j)) (Real.sin (rotAngle SQ.1 i j)))ᵀ * SQ.1 *
      rotG i j (Real.cos (rotAngle SQ.1 i j)) (Real.sin (rotAngle SQ.1 i j)),
    SQ.2 * rotG i j (Real.cos (rotAngle SQ.1 i j)) (Real.sin (rotAngle SQ.1 i j)))

/-- The scan order of the pivot search: all pairs `(r, c)` with `r < c`,
rows outermost, exactly as the source's nested loops. -/
def jacobiPairs (n : ℕ) : List (Fin n × Fin n) :=
  (List.finRange n).flatMap fun r => ((List.finRange n).filter fun c => r < c).map fun c => (r, c)

/-- Pivot selection of `jacobi_eigen_symmetric`: the first strictly-upper
pair carrying the maximal absolute value, starting from `(0, 1)` and
`maxv = 0.0` as in the source (needs `2 ≤ n` for the initial pair). -/
def jacobiPivot {n : ℕ} (S : Matrix (Fin n) (Fin n) ℝ) (h : 2 ≤ n) : Fin n × Fin n × ℝ :=
  (jacobiPairs n).foldl
    (fun acc p => if acc.2.2 < |S p.1 p.2| then (p.1, p.2, |S p.1 p.2|) else acc)
    (⟨0, by omega⟩, ⟨1, by omega⟩, 0)

/-- One iteration of the Jacobi sweep: stop (identity) when the
off-diagonal norm or the selected maximum is below `tol`, otherwise rotate.
For `n < 2` the off-diagonal norm is `0`, so with the positive tolerances
used by the source the body is the identity; the `n < 2` fallback encodes
that unreachable branch. -/
def jacobiBody {n : ℕ} (tol : ℝ)
    (SQ : Matrix (Fin n) (Fin n) ℝ × Matrix (Fin n) (Fin n) ℝ) :
    Matrix (Fin n) (Fin n) ℝ × Matrix (Fin n) (Fin n) ℝ :=
  if offNorm SQ.1 < tol then SQ
  else if h : 2 ≤ n then
    (if (jacobiPivot SQ.1 h).2.2 < tol then SQ
     else jacobiStepSQ SQ (jacobiPivot SQ.1 h).1 (jacobiPivot SQ.1 h).2.1)
  else SQ

/-- The Jacobi iteration: `max_iter` executions of the loop body starting
from `S = A`, `Q = I`. -/
def jacobiLoop {n : ℕ} (A : Matrix (Fin n) (Fin n) ℝ) (maxIter : ℕ) (tol : ℝ) :
    Matrix (Fin n) (Fin n) ℝ × Matrix (Fin n) (Fin n) ℝ :=
  (jacobiBody tol)^[maxIter] (A, 1)

/-- Result extraction of `jacobi_eigen_symmetric`: eigenvalues are the
diagonal of the final `S`, eigenvectors the final `Q`. -/
def jacobiRun {n : ℕ} (A : Matrix (Fin n) (Fin n) ℝ) (maxIter : ℕ) (tol : ℝ) :
    (Fin n → ℝ) × Matrix (Fin n) (Fin n) ℝ :=
  (fun i => (jacobiLoop A maxIter tol).1 i i, (jacobiLoop A maxIter tol).2)

/-- Embedding of `jacobi_eigen_symmetric` including its symmetry guard:
inputs with `‖A - Aᵀ‖_F > 1e-8` raise `ValueError`, everything else runs
the iteration to completion (iteration-budget exhaustion included). -/
def jacobiEigenSymmetric {n : ℕ} (A : Matrix (Fin n) (Fin n) ℝ) (maxIter : ℕ) (tol : ℝ) :
    Except String ((Fin n → ℝ) × Matrix (Fin n) (Fin n) ℝ) :=
  if 1e-8 < frobNorm (A - Aᵀ) then Except.error "Jacobi needs symmetric matrix"
  else Except.ok (jacobiRun A maxIter tol)

/-- Eigen data used by `svd_from_eig`: the Jacobi eigendecomposition of
`AᵀA` (run with `max_iter=20000`, `tol=1e-14`), sorted descending.
`AᵀA` is exactly symmetric, so the guard of `jacobi_eigen_symmetric`
always passes here (`jacobiEigenSymmetric_transpose_mul_self` below). -/
def svdVals {m n : ℕ} (A : Matrix (Fin m) (Fin n) ℝ) :
    (Fin n → ℝ) × Matrix (Fin n) (Fin n) ℝ :=
  sortEigsDesc (jacobiRun (Aᵀ * A) 20000 1e-14).1 (jacobiRun (Aᵀ * A) 20000 1e-14).2

/-- Singular values of `svd_from_eig`: `σ_k = sqrt(clip(λ_k, 0, ∞))`. -/
def svdSig {m n : ℕ} (A : Matrix (Fin m) (Fin n) ℝ) : Fin n → ℝ :=
  fun k => Real.sqrt (max ((svdVals A).1 k) 0)

/-- The `Σ` matrix of `svd_from_eig`: zeros except `Σ[k,k] = σ_k` for
`k < min m n` with `σ_k > tol`. -/
def svdSigma {m n : ℕ} (A : Matrix (Fin m) (Fin n) ℝ) (tol : ℝ) :
    Matrix (Fin m) (Fin n) ℝ :=
  fun i j =>
    if h : (i : ℕ) = (j : ℕ) ∧ (i : ℕ) < min m n then
      (if tol < svdSig A ⟨(i : ℕ), lt_of_lt_of_le h.2 (min_le_right m n)⟩ then
        svdSig A ⟨(i : ℕ), lt_of_lt_of_le h.2 (min_le_right m n)⟩
       else 0)
    else 0

/-- Indices `k < min m n` whose singular value exceeds `tol`: exactly the
loop iterations of `svd_from_eig` that perform the division `A·v_k / σ_k`. -/
def svdUsedCols {m n : ℕ} (A : Matrix (Fin m) (Fin n) ℝ) (tol : ℝ) : List (Fin n) :=
  (List.finRange n).filter fun k => decide ((k : ℕ) < min m n ∧ tol < svdSig A k)

/-- The left singular vectors actually computed by `svd_from_eig`:
`u_k = normalize(A·v_k / σ_k)` for each used column.  The remaining columns
of `U` are filled with a Gram-Schmidt pass over `np.random.randn` vectors;
they multiply only zero rows of `Σ`, no claim below refers to them, and
their randomness is process-global nondeterminism, so they are not
modelled. -/
def svdUCols {m n : ℕ} (A : Matrix (Fin m) (Fin n) ℝ) (tol : ℝ) : List (Fin m → ℝ) :=
  (svdUsedCols A tol).map fun k =>
    normalizeVec (fun i => (∑ t, A i t * (svdVals A).2 t k) / svdSig A k)

/-- Column-wise mean of the data matrix (`X.mean(axis=0)`). -/
def pcaMean {nn d : ℕ} (X : Matrix (Fin nn) (Fin d) ℝ) : Fin d → ℝ :=
  fun j => (∑ i, X i j) / (nn : ℝ)

/-- Centered data `Xc = X - mean`. -/
def pcaCentered {nn d : ℕ} (X : Matrix (Fin nn) (Fin d) ℝ) : Matrix (Fin nn) (Fin d) ℝ :=
  fun i j => X i j - pcaMean X j

/-- Retained singular values of the centered data:
`sing = np.diag(S)[:min(n, d)]` for the `Σ` of `svd_from_eig(Xc)` (which
runs with its default `tol = 1e-10`). -/
def pcaSing {nn d : ℕ} (X : Matrix (Fin nn) (Fin d) ℝ) : Fin (min nn d) → ℝ :=
  fun t =>
    svdSigma (pcaCentered X) 1e-10 ⟨(t : ℕ), lt_of_lt_of_le t.isLt (min_le_left nn d)⟩
      ⟨(t : ℕ), lt_of_lt_of_le t.isLt (min_le_right nn d)⟩

/-- Per-component variance `σ_t²`. -/
def pcaVar {nn d : ℕ} (X : Matrix (Fin nn) (Fin d) ℝ) : Fin (min nn d) → ℝ :=
  fun t => pcaSing X t ^ 2

/-- Denominator of the explained-variance ratio: the total variance if it
exceeds `EPS`, else `1.0`. -/
def pcaTotal {nn d : ℕ} (X : Matrix (Fin nn) (Fin d) ℝ) : ℝ :=
  if EPS < ∑ t, pcaVar X t then ∑ t, pcaVar X t else 1

/-- Explained-variance ratio before truncation to `k` entries. -/
def pcaRatioFun {nn d : ℕ} (X : Matrix (Fin nn) (Fin d) ℝ) : Fin (min nn d) → ℝ :=
  fun t => pcaVar X t / pcaTotal X

/-- Result aggregate of `pca_via_svd`.  NumPy's slice `V[:, :k]` (and
`ratio[:k]`) silently truncates when fewer than `k` items exist, hence the
`min` in the column counts and the list-valued ratio. -/
structure PCAResult (nn d k : ℕ) where
  mean : Fin d → ℝ
  components : Matrix (Fin d) (Fin (min k d)) ℝ
  explainedVarianceRatio : List ℝ
  projected : Matrix (Fin nn) (Fin (min k d)) ℝ

/-- Embedding of `pca_via_svd`: center, SVD, report the leading `k`
principal directions, explained-variance ratios and projections. -/
def pcaViaSvd {nn d : ℕ} (X : Matrix (Fin nn) (Fin d) ℝ) (k : ℕ) : PCAResult nn d k :=
  { mean := pcaMean X
    components := fun jr c =>
      (svdVals (pcaCentered X)).2 jr ⟨(c : ℕ), lt_of_lt_of_le c.isLt (min_le_right k d)⟩
    explainedVarianceRatio := ((List.finRange (min nn d)).map (pcaRatioFun X)).take k
    projected := fun i c =>
      ∑ j, pcaCentered X i j *
        (svdVals (pcaCentered X)).2 j ⟨(c : ℕ), lt_of_lt_of_le c.isLt (min_le_right k d)⟩ }

/-- A symmetric matrix whose diagonal entries differ by less than `EPS`
while being nonzero: the π/4 branch of the Jacobi rotation fires without
the diagonal entries being equal. -/
def exJac : Matrix (Fin 2) (Fin 2) ℝ := !![9e-11, 1e-12; 1e-12, 0]

/-- A well-separated symmetric matrix for exercising the `atan2` branch
of the Jacobi rotation. -/
def exRot : Matrix (Fin 2) (Fin 2) ℝ := !![1, 2; 2, 5]

/-- A 2×1 data matrix whose centered total variance (`5·10⁻¹³`) is positive
but below `EPS`, so `pca_via_svd` takes the degenerate-denominator branch
with a nonzero singular value. -/
def exPca : Matrix (Fin 2) (Fin 1) ℝ := !![0; 1e-6]

end

/-! Properties of the argmax scan and the pivot search. -/

theorem argmaxFold_le {α β : Type} [LinearOrder β] (f : α → β) :
    ∀ (l : List α) (b x : α), (x = b ∨ x ∈ l) → f x ≤ f (argmaxFold f l b) := by
  intro l
  induction l with
  | nil =>
    intro b x hx
    rcases hx with rfl | h
    · exact le_rfl
    · simp at h
  | cons a t ih =>
    intro b x hx
    rw [argmaxFold, List.foldl_cons]
    have hb : f b ≤ f (if f b < f a then a else b) := by
      by_cases h : f b < f a
      · simpa [h] using le_of_lt h
      · simp [h]
    have ha : f a ≤ f (if f b < f a then a else b) := by
      by_cases h : f b < f a
      · simp [h]
      · simpa [h] using le_of_not_lt h
    rcases hx with rfl | hx
    · exact le_trans hb (ih _ _ (Or.inl rfl))
    · rcases List.mem_cons.mp hx with rfl | hx
      · exact le_trans ha (ih _ _ (Or.inl rfl))
      · exact ih _ _ (Or.inr hx)

theorem argmaxFold_cases {α β : Type} [LinearOrder β] (f : α → β) :
    ∀ (l : List α) (b : α), argmaxFold f l b = b ∨ argmaxFold f l b ∈ l := by
  intro l
  induction l with
  | nil => intro b; exact Or.inl rfl
  | cons a t ih =>
    intro b
    rw [argmaxFold, List.foldl_cons]
    rcases ih (if f b < f a then a else b) with h | h
    · rw [argmaxFold] at h
      rw [h]
      by_cases hc : f b < f a
      · rw [if_pos hc]; exact Or.inr (List.mem_cons_self a t)
      · rw [if_neg hc]; exact Or.inl rfl
    · exact Or.inr (List.mem_cons_of_mem a h)

theorem mem_drop_finRange_iff {n k : ℕ} {r : Fin n} :
    r ∈ (List.finRange n).drop k ↔ k ≤ (r : ℕ) := by
  constructor
  · intro h
    obtain ⟨i, hi, hr⟩ := List.mem_iff_getElem.mp h
    rw [List.getElem_drop] at hr
    have h2 := congrArg Fin.val hr
    simp at h2
    omega
  · intro h
    have hrn : (r : ℕ) - k < ((List.finRange n).drop k).length := by simp; omega
    refine List.mem_iff_getElem.mpr ⟨(r : ℕ) - k, hrn, ?_⟩
    rw [List.getElem_drop]
    apply Fin.ext
    simp
    omega

theorem pivotSearch_ge {n : ℕ} (U : Matrix (Fin n) (Fin n) ℚ) (k : Fin n) :
    (k : ℕ) ≤ (pivotSearch U k : ℕ) := by
  rcases argmaxFold_cases (fun t : Fin n => |U t k|) ((List.finRange n).drop (k : ℕ)) k with h | h
  · rw [pivotSearch, h]
  · exact mem_drop_finRange_iff.mp h

theorem pivotSearch_max {n : ℕ} (U : Matrix (Fin n) (Fin n) ℚ) (k : Fin n) (r : Fin n)
    (hr : (k : ℕ) ≤ (r : ℕ)) : |U r k| ≤ |U (pivotSearch U k) k| := by
  have hmem : r = k ∨ r ∈ (List.finRange n).drop (k : ℕ) := by
    rcases eq_or_lt_of_le hr with h | h
    · left
      ext
      omega
    · right
      exact mem_drop_finRange_iff.mpr hr
  exact argmaxFold_le (fun t : Fin n => |U t k|) ((List.finRange n).drop (k : ℕ)) k r hmem

/-! Row swaps commute with the products tracked by the LU invariant. -/

theorem rowSwap_mul {n : ℕ} (M N : Matrix (Fin n) (Fin n) ℚ) (k p : Fin n) :
    rowSwap M k p * N = rowSwap (M * N) k p := by
  ext i j
  simp [rowSwap, Matrix.mul_apply]

theorem rowSwap_det {n : ℕ} (M : Matrix (Fin n) (Fin n) ℚ) {k p : Fin n} (h : k ≠ p) :
    (rowSwap M k p).det = -M.det := by
  have he : rowSwap M k p = M.submatrix (Equiv.swap k p) id := rfl
  rw [he, Matrix.det_permute, Equiv.Perm.sign_swap h]
  simp

/-- The source's swap of the already-computed columns of `L` coincides with
conjugation by the transposition, thanks to the shape invariants of `L`. -/
theorem swapLowerCols_conj {n : ℕ} {L : Matrix (Fin n) (Fin n) ℚ} {k p : Fin n}
    (hdiag : ∀ i, L i i = 1)
    (hfresh : ∀ i j : Fin n, (k : ℕ) ≤ (j : ℕ) → i ≠ j → L i j = 0)
    (hkp : (k : ℕ) ≤ (p : ℕ)) (i t : Fin n) :
    swapLowerCols L k p i t = L (Equiv.swap k p i) (Equiv.swap k p t) := by
  by_cases htk : (t : ℕ) < (k : ℕ)
  · have htk' : t ≠ k := by rintro rfl; omega
    have htp : t ≠ p := by rintro rfl; omega
    rw [swapLowerCols]
    simp only [if_pos htk]
    rw [Equiv.swap_apply_of_ne_of_ne htk' htp]
  · have hkt : (k : ℕ) ≤ (t : ℕ) := not_lt.mp htk
    have col : ∀ a b : Fin n, (k : ℕ) ≤ (b : ℕ) → L a b = if a = b then 1 else 0 := by
      intro a b hb
      by_cases hab : a = b
      · rw [hab, hdiag, if_pos rfl]
      · rw [hfresh a b hb hab, if_neg hab]
    have hswt : (k : ℕ) ≤ ((Equiv.swap k p) t : ℕ) := by
      by_cases h1 : t = k
      · rw [h1, Equiv.swap_apply_left]
        exact hkp
      · by_cases h2 : t = p
        · rw [h2, Equiv.swap_apply_right]
        · rw [Equiv.swap_apply_of_ne_of_ne h1 h2]
          exact hkt
    rw [swapLowerCols]
    simp only [if_neg htk]
    rw [col i t hkt, col ((Equiv.swap k p) i) ((Equiv.swap k p) t) hswt]
    simp [Equiv.apply_eq_iff_eq]

theorem swapLowerCols_mul {n : ℕ} {L U : Matrix (Fin n) (Fin n) ℚ} {k p : Fin n}
    (hdiag : ∀ i, L i i = 1)
    (hfresh : ∀ i j : Fin n, (k : ℕ) ≤ (j : ℕ) → i ≠ j → L i j = 0)
    (hkp : (k : ℕ) ≤ (p : ℕ)) :
    swapLowerCols L k p * rowSwap U k p = rowSwap (L * U) k p := by
  ext i j
  rw [Matrix.mul_apply]
  have hterm : ∀ t : Fin n, swapLowerCols L k p i t * rowSwap U k p t j =
      (fun u => L (Equiv.swap k p i) u * U u j) (Equiv.swap k p t) := fun t => by
    rw [swapLowerCols_conj hdiag hfresh hkp]
    rfl
  rw [Finset.sum_congr rfl fun t _ => hterm t]
  rw [Equiv.sum_comp (Equiv.swap k p) (fun u => L (Equiv.swap k p i) u * U u j)]
  simp [rowSwap, Matrix.mul_apply]

/-- Effect of one elimination pass on the tracked product `L·U`: entries in
columns `≥ k` and rows `≤ k` are preserved exactly; an entry in row `i > k`
and column `j < k` picks up the correction `(U[i,k]/U[k,k])·U[k,j]` (zero
unless column `j` was a skipped near-singular column). -/
theorem elim_mul {n : ℕ} {L U : Matrix (Fin n) (Fin n) ℚ} {k : Fin n}
    (hguard : ¬ |U k k| < EPSq)
    (hdiag : ∀ i, L i i = 1)
    (hfresh : ∀ i j : Fin n, (k : ℕ) ≤ (j : ℕ) → i ≠ j → L i j = 0)
    (i j : Fin n) :
    (elimL L U k * elimU U k) i j =
      (L * U) i j +
        (if (k : ℕ) < (i : ℕ) ∧ (j : ℕ) < (k : ℕ) then U i k / U k k * U k j else 0) := by
  rw [elimL, elimU, if_neg hguard, if_neg hguard]
  simp only [Matrix.mul_apply]
  by_cases hik : (k : ℕ) < (i : ℕ)
  · have hne : k ≠ i := by
      intro h
      rw [h] at hik
      omega
    have hLik : L i k = 0 := hfresh i k le_rfl (Ne.symm hne)
    have hterm : ∀ t : Fin n,
        ((if (k : ℕ) < (i : ℕ) ∧ (t : ℕ) = (k : ℕ) then U i k / U k k else L i t) *
          (if (k : ℕ) < (t : ℕ) ∧ (k : ℕ) ≤ (j : ℕ) then U t j - U t k / U k k * U k j
           else U t j)) =
        L i t * U t j +
          (((if (k : ℕ) < (i : ℕ) ∧ (t : ℕ) = (k : ℕ) then U i k / U k k else L i t) *
            (if (k : ℕ) < (t : ℕ) ∧ (k : ℕ) ≤ (j : ℕ) then U t j - U t k / U k k * U k j
             else U t j)) - L i t * U t j) := fun t => by ring
    rw [Finset.sum_congr rfl fun t _ => hterm t, Finset.sum_add_distrib]
    have hzero : ∀ t ∈ (Finset.univ : Finset (Fin n)), t ≠ k ∧ t ≠ i →
        ((if (k : ℕ) < (i : ℕ) ∧ (t : ℕ) = (k : ℕ) then U i k / U k k else L i t) *
          (if (k : ℕ) < (t : ℕ) ∧ (k : ℕ) ≤ (j : ℕ) then U t j - U t k / U k k * U k j
           else U t j)) - L i t * U t j = 0 := by
      rintro t - ⟨htk, hti⟩
      rw [if_neg (fun h => htk (Fin.ext h.2))]
      by_cases hkt : (k : ℕ) < (t : ℕ)
      · rw [hfresh i t (le_of_lt hkt) (Ne.symm hti)]
        ring
      · rw [if_neg (fun h => hkt h.1)]
        ring
    rw [Finset.sum_eq_add_of_mem k i (Finset.mem_univ k) (Finset.mem_univ i) hne hzero]
    have hk_term :
        ((if (k : ℕ) < (i : ℕ) ∧ (k : ℕ) = (k : ℕ) then U i k / U k k else L i k) *
          (if (k : ℕ) < (k : ℕ) ∧ (k : ℕ) ≤ (j : ℕ) then U k j - U k k / U k k * U k j
           else U k j)) - L i k * U k j = U i k / U k k * U k j := by
      rw [if_pos ⟨hik, rfl⟩, if_neg (fun h => by omega), hLik]
      ring
    have hi_ne : ¬((k : ℕ) < (i : ℕ) ∧ (i : ℕ) = (k : ℕ)) := by omega
    by_cases hkj : (k : ℕ) ≤ (j : ℕ)
    · have hi_term :
          ((if (k : ℕ) < (i : ℕ) ∧ (i : ℕ) = (k : ℕ) then U i k / U k k else L i i) *
            (if (k : ℕ) < (i : ℕ) ∧ (k : ℕ) ≤ (j : ℕ) then U i j - U i k / U k k * U k j
             else U i j)) - L i i * U i j = -(U i k / U k k * U k j) := by
        rw [if_neg hi_ne, if_pos ⟨hik, hkj⟩, hdiag]
        ring
      rw [hk_term, hi_term, if_neg (by omega)]
      ring
    · have hi_term :
          ((if (k : ℕ) < (i : ℕ) ∧ (i : ℕ) = (k : ℕ) then U i k / U k k else L i i) *
            (if (k : ℕ) < (i : ℕ) ∧ (k : ℕ) ≤ (j : ℕ) then U i j - U i k / U k k * U k j
             else U i j)) - L i i * U i j = 0 := by
        rw [if_neg hi_ne, if_neg (fun h => hkj h.2), hdiag]
        ring
      rw [hk_term, hi_term, if_pos ⟨hik, not_le.mp hkj⟩]
      ring
  · have hterm : ∀ t : Fin n,
        ((if (k : ℕ) < (i : ℕ) ∧ (t : ℕ) = (k : ℕ) then U i k / U k k else L i t) *
          (if (k : ℕ) < (t : ℕ) ∧ (k : ℕ) ≤ (j : ℕ) then U t j - U t k / U k k * U k j
           else U t j)) = L i t * U t j := by
      intro t
      rw [if_neg (fun h => hik h.1)]
      by_cases hkt : (k : ℕ) < (t : ℕ)
      · have hit : i ≠ t := by
          intro h
          rw [h] at hik
          omega
        rw [hfresh i t (le_of_lt hkt) hit]
        ring
      · rw [if_neg (fun h => hkt h.1)]
    rw [Finset.sum_congr rfl fun t _ => hterm t, if_neg (fun h => hik h.1), add_zero]

/-- Loop invariant of `lu_decompose_partial_pivot` after processing pivot
columns `0, …, m-1`, over the exact-arithmetic model:
* each entry of `L·U - P·A` is at most `m·EPS` in magnitude (nonzero
  residues arise only from skipped near-singular columns, whose entries are
  below `EPS`, scaled by multipliers that pivoting keeps `≤ 1`);
* `L·U = P·A` holds exactly when the processed columns of `U` are exactly
  zero below the diagonal (in particular when no column was skipped);
* `L` is unit lower triangular and untouched in columns `≥ m`;
* processed columns of `U` are below `EPS` under the diagonal;
* `det P = (-1)^swaps`. -/
structure LUInv {n : ℕ} (A : Matrix (Fin n) (Fin n) ℚ) (m : ℕ) (st : LUState n) : Prop where
  entryBound : ∀ i j, |(st.L * st.U - st.P * A) i j| ≤ (m : ℚ) * EPSq
  exactEq : (∀ j i : Fin n, (j : ℕ) < m → (j : ℕ) < (i : ℕ) → st.U i j = 0) →
    st.L * st.U = st.P * A
  diagL : ∀ i, st.L i i = 1
  upperL : ∀ i j : Fin n, (i : ℕ) < (j : ℕ) → st.L i j = 0
  freshL : ∀ i j : Fin n, m ≤ (j : ℕ) → i ≠ j → st.L i j = 0
  lowU : ∀ i j : Fin n, (j : ℕ) < m → (j : ℕ) < (i : ℕ) → |st.U i j| < EPSq
  detP : st.P.det = (-1 : ℚ) ^ st.swaps

theorem luInv_init {n : ℕ} (A : Matrix (Fin n) (Fin n) ℚ) : LUInv A 0 (luInit A) := by
  constructor
  · intro i j
    simp [luInit]
  · intro _
    simp [luInit]
  · intro i
    simp [luInit, Matrix.one_apply]
  · intro i j hij
    have hne : i ≠ j := by
      intro h
      rw [h] at hij
      omega
    simp [luInit, Matrix.one_apply_ne hne]
  · intro i j _ hij
    simp [luInit, Matrix.one_apply_ne hij]
  · intro i j hj _
    omega
  · simp [luInit]

theorem elimU_apply {n : ℕ} {U : Matrix (Fin n) (Fin n) ℚ} {k : Fin n}
    (hguard : ¬ |U k k| < EPSq) (i j : Fin n) :
    elimU U k i j =
      if (k : ℕ) < (i : ℕ) ∧ (k : ℕ) ≤ (j : ℕ) then U i j - U i k / U k k * U k j
      else U i j := by
  rw [elimU, if_neg hguard]

theorem elimL_apply {n : ℕ} {L U : Matrix (Fin n) (Fin n) ℚ} {k : Fin n}
    (hguard : ¬ |U k k| < EPSq) (i j : Fin n) :
    elimL L U k i j =
      if (k : ℕ) < (i : ℕ) ∧ (j : ℕ) = (k : ℕ) then U i k / U k k else L i j := by
  rw [elimL, if_neg hguard]

/-- The elimination pass carries the invariant from a pivot-ready state
(pivot at the top of column `k`, magnitude at least `EPS`) to level `k+1`. -/
theorem luElim_inv {n : ℕ} {A : Matrix (Fin n) (Fin n) ℚ} {k : ℕ} (hk : k < n)
    {P1 L1 U1 : Matrix (Fin n) (Fin n) ℚ} {sw1 : ℕ}
    (hbound : ∀ i j, |(L1 * U1 - P1 * A) i j| ≤ (k : ℚ) * EPSq)
    (hexact : (∀ j i : Fin n, (j : ℕ) < k → (j : ℕ) < (i : ℕ) → U1 i j = 0) →
      L1 * U1 = P1 * A)
    (hdiag : ∀ i, L1 i i = 1)
    (hupper : ∀ i j : Fin n, (i : ℕ) < (j : ℕ) → L1 i j = 0)
    (hfresh : ∀ i j : Fin n, k ≤ (j : ℕ) → i ≠ j → L1 i j = 0)
    (hlow : ∀ i j : Fin n, (j : ℕ) < k → (j : ℕ) < (i : ℕ) → |U1 i j| < EPSq)
    (hdet : P1.det = (-1 : ℚ) ^ sw1)
    (hpiv : EPSq ≤ |U1 ⟨k, hk⟩ ⟨k, hk⟩|)
    (htop : ∀ i : Fin n, k ≤ (i : ℕ) → |U1 i ⟨k, hk⟩| ≤ |U1 ⟨k, hk⟩ ⟨k, hk⟩|) :
    LUInv A (k + 1) ⟨P1, elimL L1 U1 ⟨k, hk⟩, elimU U1 ⟨k, hk⟩, sw1⟩ := by
  have hguard : ¬ |U1 ⟨k, hk⟩ ⟨k, hk⟩| < EPSq := not_lt.mpr hpiv
  have hkv : (((⟨k, hk⟩ : Fin n)) : ℕ) = k := rfl
  have hpos : (0 : ℚ) < |U1 ⟨k, hk⟩ ⟨k, hk⟩| :=
    lt_of_lt_of_le (by norm_num [EPSq]) hpiv
  have hfresh' : ∀ i j : Fin n, ((⟨k, hk⟩ : Fin n) : ℕ) ≤ (j : ℕ) → i ≠ j → L1 i j = 0 :=
    hfresh
  constructor
  · -- entry bound
    intro i j
    have he := elim_mul hguard hdiag hfresh' i j
    have hΔ : |(if (k : ℕ) < (i : ℕ) ∧ (j : ℕ) < (k : ℕ) then
        U1 i ⟨k, hk⟩ / U1 ⟨k, hk⟩ ⟨k, hk⟩ * U1 ⟨k, hk⟩ j else 0)| ≤ EPSq := by
      by_cases hc : (k : ℕ) < (i : ℕ) ∧ (j : ℕ) < (k : ℕ)
      · rw [if_pos hc, abs_mul, abs_div]
        calc |U1 i ⟨k, hk⟩| / |U1 ⟨k, hk⟩ ⟨k, hk⟩| * |U1 ⟨k, hk⟩ j|
            ≤ 1 * |U1 ⟨k, hk⟩ j| := by
              apply mul_le_mul_of_nonneg_right _ (abs_nonneg _)
              exact (div_le_one hpos).mpr (htop i (le_of_lt hc.1))
          _ = |U1 ⟨k, hk⟩ j| := one_mul _
          _ ≤ EPSq := le_of_lt (hlow ⟨k, hk⟩ j hc.2 hc.2)
      · rw [if_neg hc]
        norm_num [EPSq]
    calc |((elimL L1 U1 ⟨k, hk⟩ * elimU U1 ⟨k, hk⟩ - P1 * A)) i j|
        = |(L1 * U1 - P1 * A) i j +
            (if (k : ℕ) < (i : ℕ) ∧ (j : ℕ) < (k : ℕ) then
              U1 i ⟨k, hk⟩ / U1 ⟨k, hk⟩ ⟨k, hk⟩ * U1 ⟨k, hk⟩ j else 0)| := by
          rw [Matrix.sub_apply, Matrix.sub_apply, he]
          ring_nf
      _ ≤ |(L1 * U1 - P1 * A) i j| +
            |(if (k : ℕ) < (i : ℕ) ∧ (j : ℕ) < (k : ℕ) then
              U1 i ⟨k, hk⟩ / U1 ⟨k, hk⟩ ⟨k, hk⟩ * U1 ⟨k, hk⟩ j else 0)| := abs_add _ _
      _ ≤ (k : ℚ) * EPSq + EPSq := add_le_add (hbound i j) hΔ
      _ = ((k + 1 : ℕ) : ℚ) * EPSq := by
          push_cast
          ring
  · -- exactness
    intro H
    have H1 : ∀ j i : Fin n, (j : ℕ) < k → (j : ℕ) < (i : ℕ) → U1 i j = 0 := by
      intro j i hj hji
      have hH := H j i (by omega) hji
      dsimp only at hH
      rwa [elimU_apply hguard, if_neg (by omega)] at hH
    have hLU : L1 * U1 = P1 * A := hexact H1
    ext i j
    dsimp only
    rw [elim_mul hguard hdiag hfresh' i j, hLU]
    by_cases hc : (k : ℕ) < (i : ℕ) ∧ (j : ℕ) < (k : ℕ)
    · rw [if_pos hc, H1 j ⟨k, hk⟩ hc.2 hc.2, mul_zero, add_zero]
    · rw [if_neg hc, add_zero]
  · -- diagonal of L
    intro i
    dsimp only
    rw [elimL_apply hguard, if_neg (by omega)]
    exact hdiag i
  · -- upper part of L
    intro i j hij
    dsimp only
    rw [elimL_apply hguard, if_neg (by omega)]
    exact hupper i j hij
  · -- untouched columns of L
    intro i j hj hij
    dsimp only
    rw [elimL_apply hguard, if_neg (by omega)]
    exact hfresh i j (by omega) hij
  · -- processed columns of U
    intro i j hj hji
    by_cases hjk : (j : ℕ) < k
    · dsimp only
      rw [elimU_apply hguard, if_neg (by omega)]
      exact hlow i j hjk hji
    · have hjeq : (j : ℕ) = k := by omega
      have hik : (k : ℕ) < (i : ℕ) := by omega
      dsimp only
      rw [elimU_apply hguard, if_pos ⟨hik, by omega⟩]
      have hjkf : j = (⟨k, hk⟩ : Fin n) := Fin.ext hjeq
      rw [hjkf, div_mul_cancel₀ _ (abs_pos.mp hpos), sub_self, abs_zero]
      norm_num [EPSq]
  · -- determinant of P
    exact hdet

/-- The pivot-loop body preserves the LU invariant. -/
theorem luStep_inv {n : ℕ} {A : Matrix (Fin n) (Fin n) ℚ} {k : ℕ} (hk : k < n)
    {st : LUState n} (h : LUInv A k st) : LUInv A (k + 1) (luStep st ⟨k, hk⟩) := by
  have hkv : (((⟨k, hk⟩ : Fin n)) : ℕ) = k := rfl
  have hEPSnn : (0 : ℚ) ≤ EPSq := by norm_num [EPSq]
  by_cases hskip : |st.U (pivotSearch st.U ⟨k, hk⟩) ⟨k, hk⟩| < EPSq
  · -- skipped near-singular column: the state is unchanged
    have hstep : luStep st ⟨k, hk⟩ = st := by
      simp only [luStep]
      rw [if_pos hskip]
    rw [hstep]
    refine ⟨?_, ?_, h.diagL, h.upperL, ?_, ?_, h.detP⟩
    · intro i j
      refine le_trans (h.entryBound i j) ?_
      apply mul_le_mul_of_nonneg_right _ hEPSnn
      exact_mod_cast Nat.le_succ k
    · intro H
      exact h.exactEq fun j i hj hji => H j i (by omega) hji
    · intro i j hj hij
      exact h.freshL i j (by omega) hij
    · intro i j hj hji
      by_cases hjk : (j : ℕ) < k
      · exact h.lowU i j hjk hji
      · have hjeq : j = (⟨k, hk⟩ : Fin n) := Fin.ext (by omega)
        rw [hjeq]
        calc |st.U i ⟨k, hk⟩| ≤ |st.U (pivotSearch st.U ⟨k, hk⟩) ⟨k, hk⟩| :=
              pivotSearch_max st.U ⟨k, hk⟩ i (by omega)
          _ < EPSq := hskip
  · have hkp : k ≤ ((pivotSearch st.U ⟨k, hk⟩ : Fin n) : ℕ) := pivotSearch_ge st.U ⟨k, hk⟩
    by_cases hpk : pivotSearch st.U ⟨k, hk⟩ = ⟨k, hk⟩
    · -- pivot already in place, no swap
      have hstep : luStep st ⟨k, hk⟩ =
          ⟨st.P, elimL st.L st.U ⟨k, hk⟩, elimU st.U ⟨k, hk⟩, st.swaps⟩ := by
        simp only [luStep]
        rw [if_neg hskip, if_pos hpk]
      rw [hstep]
      rw [hpk] at hskip
      refine luElim_inv hk h.entryBound h.exactEq h.diagL h.upperL h.freshL h.lowU h.detP
        (not_lt.mp hskip) ?_
      intro i hi
      have hmax := pivotSearch_max st.U ⟨k, hk⟩ i hi
      rwa [hpk] at hmax
    · -- swap rows k and p first
      set p : Fin n := pivotSearch st.U ⟨k, hk⟩ with hpdef
      have hkpne : (⟨k, hk⟩ : Fin n) ≠ p := fun hcontra => hpk hcontra.symm
      have hstep : luStep st ⟨k, hk⟩ =
          ⟨rowSwap st.P ⟨k, hk⟩ p,
            elimL (swapLowerCols st.L ⟨k, hk⟩ p) (rowSwap st.U ⟨k, hk⟩ p) ⟨k, hk⟩,
            elimU (rowSwap st.U ⟨k, hk⟩ p) ⟨k, hk⟩, st.swaps + 1⟩ := by
        simp only [luStep]
        rw [if_neg hskip, if_neg hpk]
      rw [hstep]
      have hprod : swapLowerCols st.L ⟨k, hk⟩ p * rowSwap st.U ⟨k, hk⟩ p =
          rowSwap (st.L * st.U) ⟨k, hk⟩ p := swapLowerCols_mul h.diagL h.freshL hkp
      have hPA : rowSwap st.P ⟨k, hk⟩ p * A = rowSwap (st.P * A) ⟨k, hk⟩ p :=
        rowSwap_mul _ _ _ _
      have hL1 : ∀ i t, swapLowerCols st.L ⟨k, hk⟩ p i t =
          st.L (Equiv.swap ⟨k, hk⟩ p i) (Equiv.swap ⟨k, hk⟩ p t) :=
        swapLowerCols_conj h.diagL h.freshL hkp
      have hswge : ∀ t : Fin n, k ≤ (t : ℕ) →
          k ≤ ((Equiv.swap (⟨k, hk⟩ : Fin n) p t : Fin n) : ℕ) := by
        intro t ht
        by_cases h1 : t = ⟨k, hk⟩
        · rw [h1, Equiv.swap_apply_left]
          exact hkp
        · by_cases h2 : t = p
          · rw [h2, Equiv.swap_apply_right]
          · rw [Equiv.swap_apply_of_ne_of_ne h1 h2]
            exact ht
      have hswgt : ∀ (j i0 : Fin n), (j : ℕ) < k → (j : ℕ) < (i0 : ℕ) →
          (j : ℕ) < ((Equiv.swap (⟨k, hk⟩ : Fin n) p i0 : Fin n) : ℕ) := by
        intro j i0 hj hji
        have := hswge i0
        by_cases h1 : i0 = ⟨k, hk⟩
        · rw [h1, Equiv.swap_apply_left]
          omega
        · by_cases h2 : i0 = p
          · rw [h2, Equiv.swap_apply_right]
            omega
          · rw [Equiv.swap_apply_of_ne_of_ne h1 h2]
            omega
      refine luElim_inv hk ?_ ?_ ?_ ?_ ?_ ?_ ?_ ?_ ?_
      · intro i j
        rw [Matrix.sub_apply, hprod, hPA]
        have hdiff : rowSwap (st.L * st.U) ⟨k, hk⟩ p i j -
            rowSwap (st.P * A) ⟨k, hk⟩ p i j =
            (st.L * st.U - st.P * A) (Equiv.swap ⟨k, hk⟩ p i) j := by
          simp [rowSwap, Matrix.sub_apply]
        rw [hdiff]
        exact h.entryBound _ _
      · intro H1
        have H0 : ∀ j i0 : Fin n, (j : ℕ) < k → (j : ℕ) < (i0 : ℕ) → st.U i0 j = 0 := by
          intro j i0 hj hji
          have hx := H1 j (Equiv.swap ⟨k, hk⟩ p i0) hj (hswgt j i0 hj hji)
          simpa [rowSwap, Equiv.swap_apply_self] using hx
        rw [hprod, hPA, h.exactEq H0]
      · intro i
        rw [hL1]
        exact h.diagL _
      · intro i j hij
        rw [hL1]
        by_cases hjk : (j : ℕ) < k
        · have hjne1 : j ≠ ⟨k, hk⟩ := by
            rintro rfl
            omega
          have hjne2 : j ≠ p := by
            rintro rfl
            omega
          have hine1 : i ≠ ⟨k, hk⟩ := by
            rintro rfl
            omega
          have hine2 : i ≠ p := by
            rintro rfl
            omega
          rw [Equiv.swap_apply_of_ne_of_ne hine1 hine2,
            Equiv.swap_apply_of_ne_of_ne hjne1 hjne2]
          exact h.upperL i j hij
        · have hne0 : i ≠ j := by
            intro hcontra
            rw [hcontra] at hij
            omega
          exact h.freshL _ _ (hswge j (not_lt.mp hjk))
            fun hcontra => hne0 ((Equiv.swap (⟨k, hk⟩ : Fin n) p).injective hcontra)
      · intro i j hj hij
        rw [hL1]
        exact h.freshL _ _ (hswge j hj)
          fun hcontra => hij ((Equiv.swap (⟨k, hk⟩ : Fin n) p).injective hcontra)
      · intro i j hj hji
        exact h.lowU _ j hj (hswgt j i hj hji)
      · rw [rowSwap_det st.P hkpne, h.detP, pow_succ]
        ring
      · have hent : rowSwap st.U ⟨k, hk⟩ p ⟨k, hk⟩ ⟨k, hk⟩ = st.U p ⟨k, hk⟩ := by
          simp [rowSwap, Equiv.swap_apply_left]
        rw [hent]
        exact not_lt.mp hskip
      · intro i hi
        have hent : rowSwap st.U ⟨k, hk⟩ p ⟨k, hk⟩ ⟨k, hk⟩ = st.U p ⟨k, hk⟩ := by
          simp [rowSwap, Equiv.swap_apply_left]
        have hent2 : rowSwap st.U ⟨k, hk⟩ p i ⟨k, hk⟩ =
            st.U (Equiv.swap ⟨k, hk⟩ p i) ⟨k, hk⟩ := rfl
        rw [hent, hent2]
        exact pivotSearch_max st.U ⟨k, hk⟩ _ (hswge i hi)

theorem luIter_succ {n : ℕ} (A : Matrix (Fin n) (Fin n) ℚ) {m : ℕ} (hm : m < n) :
    luIter A (m + 1) = luStep (luIter A m) ⟨m, hm⟩ := by
  have hsome : (List.finRange n)[m]? = some ⟨m, hm⟩ := by
    rw [List.getElem?_eq_getElem (by simpa using hm)]
    simp
  rw [luIter, luIter, List.take_succ, hsome, List.foldl_append]
  rfl

theorem luIter_inv {n : ℕ} (A : Matrix (Fin n) (Fin n) ℚ) :
    ∀ m : ℕ, m ≤ n → LUInv A m (luIter A m) := by
  intro m
  induction m with
  | zero =>
    intro _
    exact luInv_init A
  | succ m ih =>
    intro hm
    have hmn : m < n := hm
    rw [luIter_succ A hmn]
    exact luStep_inv hmn (ih (le_of_lt hmn))

theorem luDecompose_inv {n : ℕ} (A : Matrix (Fin n) (Fin n) ℚ) :
    LUInv A n (luDecompose A) := by
  have heq : luDecompose A = luIter A n := by
    have htake : (List.finRange n).take n = List.finRange n :=
      List.take_of_length_le (by simp)
    rw [luDecompose, luIter, htake]
  rw [heq]
  exact luIter_inv A n le_rfl

/-! Determinant facts: exactness of the Laplace recursion away from the
skip threshold, and exactness of the LU determinant when no column was
skipped. -/

/-- When every entry of `A` is either exactly `0` or at least `EPS` in
magnitude, the skip branch of `det_recursive` only drops terms that are
exactly zero, so the recursion computes the true determinant.  (Minors
inherit the property, since their entries are entries of `A`.) -/
theorem detRecursive_eq_det :
    ∀ (n : ℕ) (A : Matrix (Fin n) (Fin n) ℚ),
      (∀ i j, A i j = 0 ∨ EPSq ≤ |A i j|) → detRecursive n A = A.det := by
  intro n
  induction n using Nat.strong_induction_on with
  | _ n ih =>
    match n with
    | 0 =>
      intro A _
      rw [detRecursive, Matrix.det_fin_zero]
    | 1 =>
      intro A _
      rw [detRecursive, Matrix.det_fin_one]
    | 2 =>
      intro A _
      rw [detRecursive, Matrix.det_fin_two]
    | (m + 3) =>
      intro A hA
      rw [detRecursive, Matrix.det_succ_row_zero]
      apply Finset.sum_congr rfl
      intro j _
      by_cases hz : |A 0 j| < EPSq
      · rw [if_pos hz]
        rcases hA 0 j with h0 | h0
        · rw [h0]
          ring
        · exact absurd h0 (not_le.mpr hz)
      · rw [if_neg hz]
        congr 1
        exact ih (m + 2) (by omega) _ fun i j' => hA i.succ (j.succAbove j')

/-- When the final `U` is exactly upper triangular (no pivot column was
skipped), `det_via_lu` computes the true determinant. -/
theorem detViaLu_eq_det {n : ℕ} (A : Matrix (Fin n) (Fin n) ℚ)
    (hU : ∀ i j : Fin n, (j : ℕ) < (i : ℕ) → (luDecompose A).U i j = 0) :
    detViaLu A = A.det := by
  have hinv := luDecompose_inv A
  have hLU : (luDecompose A).L * (luDecompose A).U = (luDecompose A).P * A :=
    hinv.exactEq fun j i hj hji => hU i j hji
  have hdetL : (luDecompose A).L.det = 1 := by
    rw [Matrix.det_of_lowerTriangular _ fun i j hij => hinv.upperL i j hij]
    exact Finset.prod_eq_one fun i _ => hinv.diagL i
  have hdetU : (luDecompose A).U.det = ∏ i, (luDecompose A).U i i :=
    Matrix.det_of_upperTriangular fun i j hij => hU i j hij
  have hdets : (luDecompose A).U.det = (-1 : ℚ) ^ (luDecompose A).swaps * A.det := by
    have hcong := congrArg Matrix.det hLU
    rwa [Matrix.det_mul, Matrix.det_mul, hdetL, one_mul, hinv.detP] at hcong
  have hsign : (if (luDecompose A).swaps % 2 = 1 then (-1 : ℚ) else 1) =
      (-1 : ℚ) ^ (luDecompose A).swaps := by
    rcases Nat.even_or_odd (luDecompose A).swaps with he | ho
    · rw [if_neg (by rw [Nat.even_iff] at he; omega), Even.neg_one_pow he]
    · rw [if_pos (Nat.odd_iff.mp ho), Odd.neg_one_pow ho]
  rw [detViaLu, hsign, ← hdetU, hdets,
    mul_div_cancel_left₀ _ (pow_ne_zero _ (by norm_num : (-1 : ℚ) ≠ 0))]

/-! Properties of the eigen sort. -/

theorem argsortDesc_nodup {α : Type} [LinearOrder α] {n : ℕ} (vals : Fin n → α) :
    (argsortDesc vals).Nodup := by
  rw [argsortDesc, List.nodup_reverse]
  exact ((List.perm_insertionSort _ _).nodup_iff).mpr (List.nodup_finRange n)

theorem sortPermFun_injective {α : Type} [LinearOrder α] {n : ℕ} (vals : Fin n → α) :
    Function.Injective (sortPermFun vals) := by
  intro a b hab
  have hinj := List.nodup_iff_injective_get.mp (argsortDesc_nodup vals)
  have h2 := hinj hab
  have h3 : (Fin.cast (argsortDesc_length vals).symm a).val =
      (Fin.cast (argsortDesc_length vals).symm b).val := congrArg Fin.val h2
  exact Fin.ext h3

theorem sortPermFun_antitone {α : Type} [LinearOrder α] {n : ℕ} (vals : Fin n → α)
    {k k' : Fin n} (hkk : k ≤ k') :
    vals (sortPermFun vals k') ≤ vals (sortPermFun vals k) := by
  haveI : IsTotal (Fin n) fun a b => vals a ≤ vals b :=
    ⟨fun a b => le_total (vals a) (vals b)⟩
  haveI : IsTrans (Fin n) fun a b => vals a ≤ vals b :=
    ⟨fun a b c hab hbc => le_trans hab hbc⟩
  have hsorted : List.Sorted (fun a b => vals a ≤ vals b)
      (List.insertionSort (fun a b => vals a ≤ vals b) (List.finRange n)) :=
    List.sorted_insertionSort _ _
  have hrev : (argsortDesc vals).Pairwise fun a b : Fin n => vals b ≤ vals a := by
    rw [argsortDesc, List.pairwise_reverse]
    exact hsorted
  rcases eq_or_lt_of_le hkk with rfl | hlt
  · exact le_rfl
  · exact List.pairwise_iff_get.mp hrev _ _ hlt

/-! Generic facts about left folds carrying an invariant (used for the
pivot scans that model `np.argmax` and the Jacobi pivot search). -/

theorem foldl_preserve {α β : Type} (P : β → Prop) (f : β → α → β) :
    ∀ (l : List α) (b : β), P b → (∀ acc x, x ∈ l → P acc → P (f acc x)) →
      P (l.foldl f b)
  | [], _, hb, _ => hb
  | a :: t, b, hb, hf => by
      rw [List.foldl_cons]
      exact foldl_preserve P f t (f b a) (hf b a (List.mem_cons_self a t) hb)
        fun acc x hx hacc => hf acc x (List.mem_cons_of_mem a hx) hacc

theorem jacobiPairs_lt {n : ℕ} {p : Fin n × Fin n} (hp : p ∈ jacobiPairs n) :
    p.1 < p.2 := by
  rw [jacobiPairs] at hp
  simp only [List.mem_flatMap, List.mem_map, List.mem_filter] at hp
  obtain ⟨r, -, c, ⟨-, hlt⟩, rfl⟩ := hp
  simpa using hlt

theorem jacobiPivot_lt {n : ℕ} (S : Matrix (Fin n) (Fin n) ℝ) (h : 2 ≤ n) :
    (jacobiPivot S h).1 < (jacobiPivot S h).2.1 := by
  rw [jacobiPivot]
  apply foldl_preserve (fun acc : Fin n × Fin n × ℝ => acc.1 < acc.2.1)
  · exact Fin.mk_lt_mk.mpr (by omega)
  · intro acc x hx hacc
    by_cases hc : acc.2.2 < |S x.1 x.2|
    · rw [if_pos hc]
      exact jacobiPairs_lt hx
    · rw [if_neg hc]
      exact hacc

/-! Entrywise algebra of the Givens rotation built by the source. -/

theorem rotG_col_i {n : ℕ} {i j : Fin n} (hij : i ≠ j) (c s : ℝ) (u : Fin n) :
    rotG i j c s u i = if u = i then c else if u = j then -s else 0 := by
  by_cases h1 : u = i
  · simp [rotG, h1, Ne.symm hij]
  · by_cases h2 : u = j
    · simp [rotG, h1, h2, hij, Ne.symm hij]
    · simp [rotG, h1, h2]

theorem rotG_col_j {n : ℕ} {i j : Fin n} (hij : i ≠ j) (c s : ℝ) (u : Fin n) :
    rotG i j c s u j = if u = i then s else if u = j then c else 0 := by
  by_cases h1 : u = i
  · simp [rotG, h1, hij, Ne.symm hij]
  · by_cases h2 : u = j
    · simp [rotG, h1, h2, hij, Ne.symm hij]
    · simp [rotG, h1, h2]

theorem rotG_col_other {n : ℕ} {i j b : Fin n} (hbi : b ≠ i) (hbj : b ≠ j) (c s : ℝ)
    (a : Fin n) : rotG i j c s a b = if a = b then 1 else 0 := by
  simp [rotG, hbi, hbj]

theorem mul_rotG_apply {n : ℕ} {i j : Fin n} (hij : i ≠ j) (c s : ℝ)
    (M : Matrix (Fin n) (Fin n) ℝ) (a b : Fin n) :
    (M * rotG i j c s) a b =
      if b = i then c * M a i - s * M a j
      else if b = j then s * M a i + c * M a j
      else M a b := by
  rw [Matrix.mul_apply]
  by_cases hbi : b = i
  · rw [if_pos hbi]
    have hsplit : ∀ u : Fin n, M a u * rotG i j c s u b =
        (if u = i then c * M a i else 0) + (if u = j then -(s * M a j) else 0) := by
      intro u
      rw [hbi, rotG_col_i hij]
      by_cases h1 : u = i
      · have h2 : ¬u = j := by
          rw [h1]
          exact hij
        rw [if_pos h1, if_pos h1, if_neg h2, h1]
        ring
      · by_cases h2 : u = j
        · rw [if_neg h1, if_pos h2, if_neg h1, if_pos h2, h2]
          ring
        · rw [if_neg h1, if_neg h2, if_neg h1, if_neg h2]
          ring
    rw [Finset.sum_congr rfl fun u _ => hsplit u, Finset.sum_add_distrib]
    simp [sub_eq_add_neg]
  · rw [if_neg hbi]
    by_cases hbj : b = j
    · rw [if_pos hbj]
      have hsplit : ∀ u : Fin n, M a u * rotG i j c s u b =
          (if u = i then s * M a i else 0) + (if u = j then c * M a j else 0) := by
        intro u
        rw [hbj, rotG_col_j hij]
        by_cases h1 : u = i
        · have h2 : ¬u = j := by
            rw [h1]
            exact hij
          rw [if_pos h1, if_pos h1, if_neg h2, h1]
          ring
        · by_cases h2 : u = j
          · rw [if_neg h1, if_pos h2, if_neg h1, if_pos h2, h2]
            ring
          · rw [if_neg h1, if_neg h2, if_neg h1, if_neg h2]
            ring
      rw [Finset.sum_congr rfl fun u _ => hsplit u, Finset.sum_add_distrib]
      simp
    · rw [if_neg hbj]
      have hsplit : ∀ u : Fin n, M a u * rotG i j c s u b =
          if u = b then M a b else 0 := by
        intro u
        rw [rotG_col_other hbi hbj]
        by_cases h1 : u = b
        · rw [if_pos h1, if_pos h1, h1, mul_one]
        · rw [if_neg h1, if_neg h1, mul_zero]
      rw [Finset.sum_congr rfl fun u _ => hsplit u]
      simp

theorem rotGT_mul_apply {n : ℕ} {i j : Fin n} (hij : i ≠ j) (c s : ℝ)
    (M : Matrix (Fin n) (Fin n) ℝ) (a b : Fin n) :
    ((rotG i j c s)ᵀ * M) a b =
      if a = i then c * M i b - s * M j b
      else if a = j then s * M i b + c * M j b
      else M a b := by
  rw [Matrix.mul_apply]
  simp only [Matrix.transpose_apply]
  by_cases hai : a = i
  · rw [if_pos hai]
    have hsplit : ∀ u : Fin n, rotG i j c s u a * M u b =
        (if u = i then c * M i b else 0) + (if u = j then -(s * M j b) else 0) := by
      intro u
      rw [hai, rotG_col_i hij]
      by_cases h1 : u = i
      · have h2 : ¬u = j := by
          rw [h1]
          exact hij
        rw [if_pos h1, if_pos h1, if_neg h2, h1]
        ring
      · by_cases h2 : u = j
        · rw [if_neg h1, if_pos h2, if_neg h1, if_pos h2, h2]
          ring
        · rw [if_neg h1, if_neg h2, if_neg h1, if_neg h2]
          ring
    rw [Finset.sum_congr rfl fun u _ => hsplit u, Finset.sum_add_distrib]
    simp [sub_eq_add_neg]
  · rw [if_neg hai]
    by_cases haj : a = j
    · rw [if_pos haj]
      have hsplit : ∀ u : Fin n, rotG i j c s u a * M u b =
          (if u = i then s * M i b else 0) + (if u = j then c * M j b else 0) := by
        intro u
        rw [haj, rotG_col_j hij]
        by_cases h1 : u = i
        · have h2 : ¬u = j := by
            rw [h1]
            exact hij
          rw [if_pos h1, if_pos h1, if_neg h2, h1]
          ring
        · by_cases h2 : u = j
          · rw [if_neg h1, if_pos h2, if_neg h1, if_pos h2, h2]
            ring
          · rw [if_neg h1, if_neg h2, if_neg h1, if_neg h2]
            ring
      rw [Finset.sum_congr rfl fun u _ => hsplit u, Finset.sum_add_distrib]
      simp
    · rw [if_neg haj]
      have hsplit : ∀ u : Fin n, rotG i j c s u a * M u b =
          if u = a then M a b else 0 := by
        intro u
        rw [rotG_col_other hai haj]
        by_cases h1 : u = a
        · rw [if_pos h1, if_pos h1, h1, one_mul]
        · rw [if_neg h1, if_neg h1, zero_mul]
      rw [Finset.sum_congr rfl fun u _ => hsplit u]
      simp

theorem rotG_ii {n : ℕ} {i j : Fin n} (hij : i ≠ j) (c s : ℝ) : rotG i j c s i i = c := by
  rw [rotG_col_i hij, if_pos rfl]

theorem rotG_ji {n : ℕ} {i j : Fin n} (hij : i ≠ j) (c s : ℝ) : rotG i j c s j i = -s := by
  rw [rotG_col_i hij, if_neg (Ne.symm hij), if_pos rfl]

theorem rotG_ij {n : ℕ} {i j : Fin n} (hij : i ≠ j) (c s : ℝ) : rotG i j c s i j = s := by
  rw [rotG_col_j hij, if_pos rfl]

theorem rotG_jj {n : ℕ} {i j : Fin n} (hij : i ≠ j) (c s : ℝ) : rotG i j c s j j = c := by
  rw [rotG_col_j hij, if_neg (Ne.symm hij), if_pos rfl]

theorem rotG_i_other {n : ℕ} {i j b : Fin n} (hbi : b ≠ i) (hbj : b ≠ j)
    (c s : ℝ) : rotG i j c s i b = 0 := by
  rw [rotG_col_other hbi hbj, if_neg fun h => hbi h.symm]

theorem rotG_j_other {n : ℕ} {i j b : Fin n} (hbi : b ≠ i) (hbj : b ≠ j)
    (c s : ℝ) : rotG i j c s j b = 0 := by
  rw [rotG_col_other hbi hbj, if_neg fun h => hbj h.symm]

theorem rotG_orthogonal {n : ℕ} {i j : Fin n} (hij : i ≠ j) {c s : ℝ}
    (hcs : c ^ 2 + s ^ 2 = 1) : (rotG i j c s)ᵀ * rotG i j c s = 1 := by
  ext a b
  rw [rotGT_mul_apply hij]
  by_cases hai : a = i
  · rw [if_pos hai]
    by_cases hbi : b = i
    · rw [hai, hbi, rotG_ii hij, rotG_ji hij, Matrix.one_apply_eq]
      linear_combination hcs
    · by_cases hbj : b = j
      · rw [hai, hbj, rotG_ij hij, rotG_jj hij, Matrix.one_apply_ne hij]
        ring
      · rw [hai, rotG_i_other hbi hbj, rotG_j_other hbi hbj,
          Matrix.one_apply_ne (show i ≠ b from fun h => hbi h.symm)]
        ring
  · rw [if_neg hai]
    by_cases haj : a = j
    · rw [if_pos haj]
      by_cases hbi : b = i
      · rw [haj, hbi, rotG_ii hij, rotG_ji hij, Matrix.one_apply_ne (Ne.symm hij)]
        ring
      · by_cases hbj : b = j
        · rw [haj, hbj, rotG_ij hij, rotG_jj hij, Matrix.one_apply_eq]
          linear_combination hcs
        · rw [haj, rotG_i_other hbi hbj, rotG_j_other hbi hbj,
            Matrix.one_apply_ne (show j ≠ b from fun h => hbj h.symm)]
          ring
    · rw [if_neg haj]
      by_cases hbi : b = i
      · rw [hbi, rotG_col_i hij, if_neg hai, if_neg haj, Matrix.one_apply_ne hai]
      · by_cases hbj : b = j
        · rw [hbj, rotG_col_j hij, if_neg hai, if_neg haj, Matrix.one_apply_ne haj]
        · rw [rotG_col_other hbi hbj, Matrix.one_apply]

/-! Frobenius bookkeeping for one Jacobi rotation. -/

theorem frobSq_eq_trace {n : ℕ} (M : Matrix (Fin n) (Fin n) ℝ) :
    frobSq M = Matrix.trace (Mᵀ * M) := by
  rw [frobSq, Matrix.trace]
  rw [Finset.sum_comm]
  apply Finset.sum_congr rfl
  intro j _
  simp [Matrix.diag, Matrix.mul_apply, sq]

theorem frobSq_conj {n : ℕ} {W : Matrix (Fin n) (Fin n) ℝ} (hW : Wᵀ * W = 1)
    (S : Matrix (Fin n) (Fin n) ℝ) : frobSq (Wᵀ * S * W) = frobSq S := by
  have hW2 : W * Wᵀ = 1 := Matrix.mul_eq_one_comm.mp hW
  rw [frobSq_eq_trace, frobSq_eq_trace]
  have ht : (Wᵀ * S * W)ᵀ = Wᵀ * Sᵀ * W := by
    rw [Matrix.transpose_mul, Matrix.transpose_mul, Matrix.transpose_transpose,
      ← Matrix.mul_assoc]
  rw [ht]
  simp only [Matrix.mul_assoc]
  rw [show W * (Wᵀ * (S * W)) = S * W from by
    rw [← Matrix.mul_assoc, hW2, Matrix.one_mul]]
  rw [Matrix.trace_mul_comm]
  simp only [Matrix.mul_assoc]
  rw [show S * (W * Wᵀ) = S from by rw [hW2, Matrix.mul_one]]

theorem offSq_eq {n : ℕ} (S : Matrix (Fin n) (Fin n) ℝ) :
    offSq S = frobSq S - ∑ r, (S r r) ^ 2 := by
  rw [offSq, offPart, frobSq, frobSq, ← Finset.sum_sub_distrib]
  apply Finset.sum_congr rfl
  intro i _
  have hterm : ∀ j, ((S - Matrix.diagonal fun r => S r r) i j) ^ 2 =
      (S i j) ^ 2 - (if j = i then (S i i) ^ 2 else 0) := by
    intro j
    rw [Matrix.sub_apply, Matrix.diagonal_apply]
    by_cases h : i = j
    · rw [if_pos h, if_pos h.symm, ← h]
      ring
    · rw [if_neg h, if_neg (Ne.symm h)]
      ring
  rw [Finset.sum_congr rfl fun j _ => hterm j, Finset.sum_sub_distrib]
  congr 1
  rw [Finset.sum_ite_eq' Finset.univ i fun _ => (S i i) ^ 2]
  simp

theorem sum_diag_sq_update {n : ℕ} (f g : Fin n → ℝ) {i j : Fin n} (hij : i ≠ j)
    (h : ∀ r, r ≠ i → r ≠ j → g r = f r) :
    ∑ r, (g r) ^ 2 =
      ∑ r, (f r) ^ 2 - (f i) ^ 2 - (f j) ^ 2 + (g i) ^ 2 + (g j) ^ 2 := by
  have hpeel : ∀ h' : Fin n → ℝ, ∑ r, (h' r) ^ 2 =
      (h' i) ^ 2 + (h' j) ^ 2 + ∑ r ∈ (Finset.univ.erase i).erase j, (h' r) ^ 2 := by
    intro h'
    rw [← Finset.add_sum_erase _ _ (Finset.mem_univ i),
      ← Finset.add_sum_erase _ (fun r => (h' r) ^ 2)
        (Finset.mem_erase.mpr ⟨Ne.symm hij, Finset.mem_univ j⟩)]
    ring
  rw [hpeel g, hpeel f]
  have hrest : ∑ r ∈ (Finset.univ.erase i).erase j, (g r) ^ 2 =
      ∑ r ∈ (Finset.univ.erase i).erase j, (f r) ^ 2 := by
    apply Finset.sum_congr rfl
    intro r hr
    have hr2 := Finset.mem_erase.mp hr
    have hr3 := Finset.mem_erase.mp hr2.2
    rw [h r hr3.1 hr2.1]
  rw [hrest]
  ring

theorem rot_entry_ij {n : ℕ} {i j : Fin n} (hij : i ≠ j) (c s : ℝ)
    (S : Matrix (Fin n) (Fin n) ℝ) (hsym : S j i = S i j) :
    ((rotG i j c s)ᵀ * S * rotG i j c s) i j =
      c * s * (S i i - S j j) + (c ^ 2 - s ^ 2) * S i j := by
  rw [mul_rotG_apply hij, if_neg (Ne.symm hij), if_pos rfl,
    rotGT_mul_apply hij, rotGT_mul_apply hij, if_pos rfl, if_pos rfl, hsym]
  ring

theorem rot_entry_ji {n : ℕ} {i j : Fin n} (hij : i ≠ j) (c s : ℝ)
    (S : Matrix (Fin n) (Fin n) ℝ) (hsym : S j i = S i j) :
    ((rotG i j c s)ᵀ * S * rotG i j c s) j i =
      c * s * (S i i - S j j) + (c ^ 2 - s ^ 2) * S i j := by
  rw [mul_rotG_apply hij, if_pos rfl, rotGT_mul_apply hij, rotGT_mul_apply hij,
    if_neg (Ne.symm hij), if_neg (Ne.symm hij), if_pos rfl, if_pos rfl, hsym]
  ring

theorem rot_entry_ii {n : ℕ} {i j : Fin n} (hij : i ≠ j) (c s : ℝ)
    (S : Matrix (Fin n) (Fin n) ℝ) (hsym : S j i = S i j) :
    ((rotG i j c s)ᵀ * S * rotG i j c s) i i =
      c ^ 2 * S i i - 2 * c * s * S i j + s ^ 2 * S j j := by
  rw [mul_rotG_apply hij, if_pos rfl, rotGT_mul_apply hij, rotGT_mul_apply hij,
    if_pos rfl, if_pos rfl, hsym]
  ring

theorem rot_entry_jj {n : ℕ} {i j : Fin n} (hij : i ≠ j) (c s : ℝ)
    (S : Matrix (Fin n) (Fin n) ℝ) (hsym : S j i = S i j) :
    ((rotG i j c s)ᵀ * S * rotG i j c s) j j =
      s ^ 2 * S i i + 2 * c * s * S i j + c ^ 2 * S j j := by
  rw [mul_rotG_apply hij, if_neg (Ne.symm hij), if_pos rfl, rotGT_mul_apply hij,
    rotGT_mul_apply hij, if_neg (Ne.symm hij), if_neg (Ne.symm hij),
    if_pos rfl, if_pos rfl, hsym]
  ring

theorem rot_entry_other {n : ℕ} {i j r : Fin n} (hij : i ≠ j) (hri : r ≠ i) (hrj : r ≠ j)
    (c s : ℝ) (S : Matrix (Fin n) (Fin n) ℝ) :
    ((rotG i j c s)ᵀ * S * rotG i j c s) r r = S r r := by
  rw [mul_rotG_apply hij, if_neg hri, if_neg hrj, rotGT_mul_apply hij,
    if_neg hri, if_neg hrj]

/-- Frobenius bookkeeping of one rotation: the off-diagonal mass changes by
`2·(new S[i,j])² - 2·(old S[i,j])²`; in particular it strictly decreases
whenever the rotation zeroes the pivot pair. -/
theorem rot_offSq {n : ℕ} {i j : Fin n} (hij : i ≠ j) {c s : ℝ}
    (hcs : c ^ 2 + s ^ 2 = 1) (S : Matrix (Fin n) (Fin n) ℝ) (hsym : S j i = S i j) :
    offSq ((rotG i j c s)ᵀ * S * rotG i j c s) + 2 * (S i j) ^ 2 =
      offSq S + 2 * (((rotG i j c s)ᵀ * S * rotG i j c s) i j) ^ 2 := by
  have hfrob : frobSq ((rotG i j c s)ᵀ * S * rotG i j c s) = frobSq S :=
    frobSq_conj (rotG_orthogonal hij hcs) S
  rw [offSq_eq, offSq_eq, hfrob]
  have hdiagsum : ∑ r, (((rotG i j c s)ᵀ * S * rotG i j c s) r r) ^ 2 =
      ∑ r, (S r r) ^ 2 - (S i i) ^ 2 - (S j j) ^ 2 +
        (((rotG i j c s)ᵀ * S * rotG i j c s) i i) ^ 2 +
        (((rotG i j c s)ᵀ * S * rotG i j c s) j j) ^ 2 :=
    sum_diag_sq_update (fun r => S r r) (fun r => ((rotG i j c s)ᵀ * S * rotG i j c s) r r)
      hij fun r hri hrj => rot_entry_other hij hri hrj c s S
  rw [hdiagsum]
  have htr : ((rotG i j c s)ᵀ * S * rotG i j c s) i i +
      ((rotG i j c s)ᵀ * S * rotG i j c s) j j = S i i + S j j := by
    rw [rot_entry_ii hij c s S hsym, rot_entry_jj hij c s S hsym]
    linear_combination (S i i + S j j) * hcs
  have hdet2 : ((rotG i j c s)ᵀ * S * rotG i j c s) i i *
        ((rotG i j c s)ᵀ * S * rotG i j c s) j j -
        (((rotG i j c s)ᵀ * S * rotG i j c s) i j) ^ 2 =
      S i i * S j j - (S i j) ^ 2 := by
    rw [rot_entry_ii hij c s S hsym, rot_entry_jj hij c s S hsym,
      rot_entry_ij hij c s S hsym]
    linear_combination ((c ^ 2 + s ^ 2 + 1) * (S i i * S j j - (S i j) ^ 2)) * hcs
  have hsq : (((rotG i j c s)ᵀ * S * rotG i j c s) i i) ^ 2 +
      (((rotG i j c s)ᵀ * S * rotG i j c s) j j) ^ 2 =
      (S i i) ^ 2 + (S j j) ^ 2 + 2 * (S i j) ^ 2 -
        2 * (((rotG i j c s)ᵀ * S * rotG i j c s) i j) ^ 2 := by
    linear_combination
      (((rotG i j c s)ᵀ * S * rotG i j c s) i i +
        ((rotG i j c s)ᵀ * S * rotG i j c s) j j + S i i + S j j) * htr - 2 * hdet2
  linear_combination (-1 : ℝ) * hsq

/-- The rotation angle chosen by the source zeroes the pivot entry exactly
in the `atan2` branch, and in the `π/4` branch when the two diagonal
entries are exactly equal. -/
theorem rotAngle_zero_entry {n : ℕ} {i j : Fin n} (hij : i ≠ j)
    (S : Matrix (Fin n) (Fin n) ℝ) (hsym : S j i = S i j)
    (hbranch : EPS ≤ |S i i - S j j| ∨ S i i = S j j) :
    ((rotG i j (Real.cos (rotAngle S i j)) (Real.sin (rotAngle S i j)))ᵀ * S *
        rotG i j (Real.cos (rotAngle S i j)) (Real.sin (rotAngle S i j))) i j = 0 := by
  rw [rot_entry_ij hij _ _ S hsym]
  have hdouble : Real.cos (rotAngle S i j) * Real.sin (rotAngle S i j) *
      (S i i - S j j) +
        ((Real.cos (rotAngle S i j)) ^ 2 - (Real.sin (rotAngle S i j)) ^ 2) * S i j =
      Real.sin (2 * rotAngle S i j) / 2 * (S i i - S j j) +
        Real.cos (2 * rotAngle S i j) * S i j := by
    rw [Real.sin_two_mul, Real.cos_two_mul']
    ring
  rw [hdouble]
  rcases hbranch with hfar | heq
  · have hne : ¬ |S i i - S j j| < EPS := not_lt.mpr hfar
    have hθ : rotAngle S i j = 1 / 2 * atan2 (2 * S i j) (S j j - S i i) := by
      rw [rotAngle, if_neg hne]
    have h2θ : 2 * rotAngle S i j = atan2 (2 * S i j) (S j j - S i i) := by
      rw [hθ]
      ring
    rw [h2θ]
    have hre : S j j - S i i ≠ 0 := by
      intro hcontra
      rw [show S i i - S j j = -(S j j - S i i) from by ring, hcontra] at hfar
      norm_num [EPS] at hfar
    have hz0 : (⟨S j j - S i i, 2 * S i j⟩ : ℂ) ≠ 0 := by
      intro hcontra
      exact hre (congrArg Complex.re hcontra)
    have hcos : Real.cos (atan2 (2 * S i j) (S j j - S i i)) =
        (S j j - S i i) / Complex.abs ⟨S j j - S i i, 2 * S i j⟩ :=
      Complex.cos_arg hz0
    have hsin : Real.sin (atan2 (2 * S i j) (S j j - S i i)) =
        (2 * S i j) / Complex.abs ⟨S j j - S i i, 2 * S i j⟩ :=
      Complex.sin_arg _
    rw [hcos, hsin]
    have habs : Complex.abs ⟨S j j - S i i, 2 * S i j⟩ ≠ 0 :=
      Complex.abs.ne_zero hz0
    field_simp
    ring
  · have hlt : |S i i - S j j| < EPS := by
      rw [heq, sub_self, abs_zero]
      norm_num [EPS]
    have hθ : rotAngle S i j = Real.pi / 4 := by
      rw [rotAngle, if_pos hlt]
    rw [hθ, heq, show 2 * (Real.pi / 4) = Real.pi / 2 from by ring,
      Real.cos_pi_div_two]
    ring

theorem jacobiBody_fixed {n : ℕ} {tol : ℝ}
    {SQ : Matrix (Fin n) (Fin n) ℝ × Matrix (Fin n) (Fin n) ℝ}
    (h : offNorm SQ.1 < tol) : jacobiBody tol SQ = SQ := by
  unfold jacobiBody
  rw [if_pos h]

/-- Loop invariant of the Jacobi sweep: the accumulated `Q` stays exactly
orthogonal, and the working matrix is exactly `Qᵀ·A·Q`. -/
theorem jacobiLoop_inv {n : ℕ} (A : Matrix (Fin n) (Fin n) ℝ) (tol : ℝ) (m : ℕ) :
    (jacobiLoop A m tol).2ᵀ * (jacobiLoop A m tol).2 = 1 ∧
      (jacobiLoop A m tol).1 = (jacobiLoop A m tol).2ᵀ * A * (jacobiLoop A m tol).2 := by
  simp only [jacobiLoop]
  induction m with
  | zero =>
    simp
  | succ m ih =>
    rw [Function.iterate_succ_apply']
    obtain ⟨ih1, ih2⟩ := ih
    set SQ := (jacobiBody tol)^[m] (A, (1 : Matrix (Fin n) (Fin n) ℝ)) with hSQ
    unfold jacobiBody
    by_cases h1 : offNorm SQ.1 < tol
    · rw [if_pos h1]
      exact ⟨ih1, ih2⟩
    · rw [if_neg h1]
      by_cases h2 : 2 ≤ n
      · rw [dif_pos h2]
        by_cases h3 : (jacobiPivot SQ.1 h2).2.2 < tol
        · rw [if_pos h3]
          exact ⟨ih1, ih2⟩
        · rw [if_neg h3]
          have hij : (jacobiPivot SQ.1 h2).1 ≠ (jacobiPivot SQ.1 h2).2.1 :=
            Fin.ne_of_lt (jacobiPivot_lt SQ.1 h2)
          have hGorth := rotG_orthogonal hij
            (Real.cos_sq_add_sin_sq (rotAngle SQ.1 (jacobiPivot SQ.1 h2).1
              (jacobiPivot SQ.1 h2).2.1))
          constructor
          · show (SQ.2 * rotG (jacobiPivot SQ.1 h2).1 (jacobiPivot SQ.1 h2).2.1
                (Real.cos (rotAngle SQ.1 (jacobiPivot SQ.1 h2).1 (jacobiPivot SQ.1 h2).2.1))
                (Real.sin (rotAngle SQ.1 (jacobiPivot SQ.1 h2).1
                  (jacobiPivot SQ.1 h2).2.1)))ᵀ *
              (SQ.2 * rotG (jacobiPivot SQ.1 h2).1 (jacobiPivot SQ.1 h2).2.1
                (Real.cos (rotAngle SQ.1 (jacobiPivot SQ.1 h2).1 (jacobiPivot SQ.1 h2).2.1))
                (Real.sin (rotAngle SQ.1 (jacobiPivot SQ.1 h2).1
                  (jacobiPivot SQ.1 h2).2.1))) = 1
            rw [Matrix.transpose_mul, Matrix.mul_assoc,
              show SQ.2ᵀ * (SQ.2 * rotG (jacobiPivot SQ.1 h2).1 (jacobiPivot SQ.1 h2).2.1
                (Real.cos (rotAngle SQ.1 (jacobiPivot SQ.1 h2).1 (jacobiPivot SQ.1 h2).2.1))
                (Real.sin (rotAngle SQ.1 (jacobiPivot SQ.1 h2).1
                  (jacobiPivot SQ.1 h2).2.1))) =
                rotG (jacobiPivot SQ.1 h2).1 (jacobiPivot SQ.1 h2).2.1
                  (Real.cos (rotAngle SQ.1 (jacobiPivot SQ.1 h2).1
                    (jacobiPivot SQ.1 h2).2.1))
                  (Real.sin (rotAngle SQ.1 (jacobiPivot SQ.1 h2).1
                    (jacobiPivot SQ.1 h2).2.1)) from by
                rw [← Matrix.mul_assoc, ih1, Matrix.one_mul]]
            exact hGorth
          · show (rotG (jacobiPivot SQ.1 h2).1 (jacobiPivot SQ.1 h2).2.1
                (Real.cos (rotAngle SQ.1 (jacobiPivot SQ.1 h2).1 (jacobiPivot SQ.1 h2).2.1))
                (Real.sin (rotAngle SQ.1 (jacobiPivot SQ.1 h2).1
                  (jacobiPivot SQ.1 h2).2.1)))ᵀ * SQ.1 *
              rotG (jacobiPivot SQ.1 h2).1 (jacobiPivot SQ.1 h2).2.1
                (Real.cos (rotAngle SQ.1 (jacobiPivot SQ.1 h2).1 (jacobiPivot SQ.1 h2).2.1))
                (Real.sin (rotAngle SQ.1 (jacobiPivot SQ.1 h2).1
                  (jacobiPivot SQ.1 h2).2.1)) =
              (SQ.2 * rotG (jacobiPivot SQ.1 h2).1 (jacobiPivot SQ.1 h2).2.1
                (Real.cos (rotAngle SQ.1 (jacobiPivot SQ.1 h2).1 (jacobiPivot SQ.1 h2).2.1))
                (Real.sin (rotAngle SQ.1 (jacobiPivot SQ.1 h2).1
                  (jacobiPivot SQ.1 h2).2.1)))ᵀ * A *
              (SQ.2 * rotG (jacobiPivot SQ.1 h2).1 (jacobiPivot SQ.1 h2).2.1
                (Real.cos (rotAngle SQ.1 (jacobiPivot SQ.1 h2).1 (jacobiPivot SQ.1 h2).2.1))
                (Real.sin (rotAngle SQ.1 (jacobiPivot SQ.1 h2).1
                  (jacobiPivot SQ.1 h2).2.1)))
            rw [ih2, Matrix.transpose_mul]
            simp only [Matrix.mul_assoc]
      · rw [dif_neg h2]
        exact ⟨ih1, ih2⟩

/-- After any number of Jacobi iterations, `Q` is exactly orthogonal and
the reconstruction defect `A - Q·diag(vals)·Qᵀ` has Frobenius square equal
to the off-diagonal mass left in the working matrix. -/
theorem jacobiRun_recon {n : ℕ} (A : Matrix (Fin n) (Fin n) ℝ) (maxIter : ℕ) (tol : ℝ) :
    (jacobiRun A maxIter tol).2ᵀ * (jacobiRun A maxIter tol).2 = 1 ∧
      frobSq (A - (jacobiRun A maxIter tol).2 *
          Matrix.diagonal (jacobiRun A maxIter tol).1 * (jacobiRun A maxIter tol).2ᵀ) =
        offSq (jacobiLoop A maxIter tol).1 := by
  simp only [jacobiRun]
  obtain ⟨h1, h2⟩ := jacobiLoop_inv A tol maxIter
  refine ⟨h1, ?_⟩
  set S := (jacobiLoop A maxIter tol).1 with hS
  set Q := (jacobiLoop A maxIter tol).2 with hQ
  have hQQT : Q * Qᵀ = 1 := Matrix.mul_eq_one_comm.mp h1
  have hA : A = Q * S * Qᵀ := by
    rw [h2, show Q * (Qᵀ * A * Q) * Qᵀ = Q * Qᵀ * A * (Q * Qᵀ) from by
      simp only [Matrix.mul_assoc], hQQT, Matrix.one_mul, Matrix.mul_one]
  have hdiff : A - Q * Matrix.diagonal (fun i => S i i) * Qᵀ =
      Q * (S - Matrix.diagonal fun i => S i i) * Qᵀ := by
    rw [Matrix.mul_sub, Matrix.sub_mul, ← hA]
  rw [hdiff]
  have horth : Qᵀᵀ * Qᵀ = 1 := by
    rw [Matrix.transpose_transpose]
    exact hQQT
  have hconj := frobSq_conj horth (S - Matrix.diagonal fun i => S i i)
  rw [Matrix.transpose_transpose] at hconj
  rw [hconj]
  rfl

/-! Helpers for the SVD and PCA layers. -/

theorem jacobiEigenSymmetric_transpose_mul_self {m n : ℕ} (A : Matrix (Fin m) (Fin n) ℝ)
    (maxIter : ℕ) (tol : ℝ) :
    jacobiEigenSymmetric (Aᵀ * A) maxIter tol =
      Except.ok (jacobiRun (Aᵀ * A) maxIter tol) := by
  unfold jacobiEigenSymmetric
  rw [if_neg]
  intro hcontra
  have hzero : Aᵀ * A - (Aᵀ * A)ᵀ = 0 := by
    rw [Matrix.transpose_mul, Matrix.transpose_transpose, sub_self]
  rw [hzero] at hcontra
  have : frobNorm (0 : Matrix (Fin n) (Fin n) ℝ) = 0 := by
    simp [frobNorm, frobSq]
  rw [this] at hcontra
  norm_num at hcontra

theorem svdVals_antitone {m n : ℕ} (A : Matrix (Fin m) (Fin n) ℝ) {k k' : Fin n}
    (h : k ≤ k') : (svdVals A).1 k' ≤ (svdVals A).1 k := by
  simp only [svdVals, sortEigsDesc]
  exact sortPermFun_antitone _ h

theorem svdSig_nonneg {m n : ℕ} (A : Matrix (Fin m) (Fin n) ℝ) (k : Fin n) :
    0 ≤ svdSig A k :=
  Real.sqrt_nonneg _

theorem svdSig_antitone {m n : ℕ} (A : Matrix (Fin m) (Fin n) ℝ) {k k' : Fin n}
    (h : k ≤ k') : svdSig A k' ≤ svdSig A k := by
  rw [svdSig, svdSig]
  exact Real.sqrt_le_sqrt (max_le_max (svdVals_antitone A h) le_rfl)

theorem pcaSing_eq {nn d : ℕ} (X : Matrix (Fin nn) (Fin d) ℝ) (t : Fin (min nn d)) :
    pcaSing X t =
      if 1e-10 < svdSig (pcaCentered X) ⟨(t : ℕ), lt_of_lt_of_le t.isLt (min_le_right nn d)⟩
      then svdSig (pcaCentered X) ⟨(t : ℕ), lt_of_lt_of_le t.isLt (min_le_right nn d)⟩
      else 0 := by
  rw [pcaSing, svdSigma, dif_pos ⟨rfl, t.isLt⟩]

theorem pcaSing_nonneg {nn d : ℕ} (X : Matrix (Fin nn) (Fin d) ℝ) (t : Fin (min nn d)) :
    0 ≤ pcaSing X t := by
  rw [pcaSing_eq]
  by_cases h : 1e-10 < svdSig (pcaCentered X)
      ⟨(t : ℕ), lt_of_lt_of_le t.isLt (min_le_right nn d)⟩
  · rw [if_pos h]
    exact svdSig_nonneg _ _
  · rw [if_neg h]

theorem pcaSing_antitone {nn d : ℕ} (X : Matrix (Fin nn) (Fin d) ℝ)
    {t t' : Fin (min nn d)} (h : t ≤ t') : pcaSing X t' ≤ pcaSing X t := by
  rw [pcaSing_eq, pcaSing_eq]
  have hsig : svdSig (pcaCentered X) ⟨(t' : ℕ), lt_of_lt_of_le t'.isLt (min_le_right nn d)⟩ ≤
      svdSig (pcaCentered X) ⟨(t : ℕ), lt_of_lt_of_le t.isLt (min_le_right nn d)⟩ :=
    svdSig_antitone _ h
  by_cases h1 : 1e-10 < svdSig (pcaCentered X)
      ⟨(t' : ℕ), lt_of_lt_of_le t'.isLt (min_le_right nn d)⟩
  · rw [if_pos h1, if_pos (lt_of_lt_of_le h1 hsig)]
    exact hsig
  · rw [if_neg h1]
    by_cases h2 : 1e-10 < svdSig (pcaCentered X)
        ⟨(t : ℕ), lt_of_lt_of_le t.isLt (min_le_right nn d)⟩
    · rw [if_pos h2]
      exact svdSig_nonneg _ _
    · rw [if_neg h2]

theorem pcaVar_nonneg {nn d : ℕ} (X : Matrix (Fin nn) (Fin d) ℝ) (t : Fin (min nn d)) :
    0 ≤ pcaVar X t := sq_nonneg _

theorem pcaVar_antitone {nn d : ℕ} (X : Matrix (Fin nn) (Fin d) ℝ)
    {t t' : Fin (min nn d)} (h : t ≤ t') : pcaVar X t' ≤ pcaVar X t := by
  rw [pcaVar, pcaVar]
  exact pow_le_pow_left (pcaSing_nonneg X t') (pcaSing_antitone X h) 2

theorem pcaTotal_pos {nn d : ℕ} (X : Matrix (Fin nn) (Fin d) ℝ) : 0 < pcaTotal X := by
  rw [pcaTotal]
  by_cases h : EPS < ∑ t, pcaVar X t
  · rw [if_pos h]
    calc (0 : ℝ) < EPS := by norm_num [EPS]
      _ < _ := h
  · rw [if_neg h]
    norm_num

theorem pcaRatioFun_nonneg {nn d : ℕ} (X : Matrix (Fin nn) (Fin d) ℝ)
    (t : Fin (min nn d)) : 0 ≤ pcaRatioFun X t :=
  div_nonneg (pcaVar_nonneg X t) (le_of_lt (pcaTotal_pos X))

theorem pcaRatioFun_antitone {nn d : ℕ} (X : Matrix (Fin nn) (Fin d) ℝ)
    {t t' : Fin (min nn d)} (h : t ≤ t') : pcaRatioFun X t' ≤ pcaRatioFun X t :=
  (div_le_div_right (pcaTotal_pos X)).mpr (pcaVar_antitone X h)

theorem pcaRatio_sum_le_one {nn d : ℕ} (X : Matrix (Fin nn) (Fin d) ℝ) (k : ℕ) :
    (((List.finRange (min nn d)).map (pcaRatioFun X)).take k).sum ≤ 1 := by
  have hfull : ((List.finRange (min nn d)).map (pcaRatioFun X)).sum =
      ∑ t, pcaRatioFun X t := (Fin.sum_univ_def (pcaRatioFun X)).symm
  have htake : (((List.finRange (min nn d)).map (pcaRatioFun X)).take k).sum ≤
      ((List.finRange (min nn d)).map (pcaRatioFun X)).sum := by
    conv_rhs =>
      rw [← List.take_append_drop k ((List.finRange (min nn d)).map (pcaRatioFun X))]
    rw [List.sum_append]
    have hd : 0 ≤ (((List.finRange (min nn d)).map (pcaRatioFun X)).drop k).sum := by
      apply List.sum_nonneg
      intro x hx
      obtain ⟨t, -, rfl⟩ := List.mem_map.mp (List.mem_of_mem_drop hx)
      exact pcaRatioFun_nonneg X t
    linarith
  refine le_trans htake ?_
  rw [hfull]
  have hsum : ∑ t, pcaRatioFun X t = (∑ t, pcaVar X t) / pcaTotal X := by
    simp only [pcaRatioFun]
    rw [← Finset.sum_div]
  rw [hsum]
  by_cases h : EPS < ∑ t, pcaVar X t
  · rw [pcaTotal, if_pos h, div_self (ne_of_gt (lt_trans (by norm_num [EPS]) h))]
  · rw [pcaTotal, if_neg h, div_one]
    calc ∑ t, pcaVar X t ≤ EPS := not_lt.mp h
      _ ≤ 1 := by norm_num [EPS]

theorem pcaRatio_pairwise {nn d : ℕ} (X : Matrix (Fin nn) (Fin d) ℝ) (k : ℕ) :
    (((List.finRange (min nn d)).map (pcaRatioFun X)).take k).Pairwise
      fun a b => b ≤ a := by
  apply List.Pairwise.sublist (List.take_sublist k _)
  rw [List.pairwise_map]
  exact (List.pairwise_lt_finRange _).imp
    fun hab => pcaRatioFun_antitone X (le_of_lt hab)

theorem pcaRatio_getElem {nn d : ℕ} (X : Matrix (Fin nn) (Fin d) ℝ) (k : ℕ)
    (t : Fin (min nn d)) (ht : (t : ℕ) < k) :
    (((List.finRange (min nn d)).map (pcaRatioFun X)).take k)[(t : ℕ)]? =
      some (pcaVar X t / pcaTotal X) := by
  have hlen : (t : ℕ) < (((List.finRange (min nn d)).map (pcaRatioFun X)).take k).length := by
    simp
    omega
  rw [List.getElem?_eq_getElem hlen]
  congr 1
  rw [List.getElem_take]
  simp [pcaRatioFun]

theorem pcaTotal_degenerate {nn d : ℕ} (X : Matrix (Fin nn) (Fin d) ℝ)
    (h : ∑ t, pcaVar X t ≤ EPS) : pcaTotal X = 1 := by
  rw [pcaTotal, if_neg (not_lt.mpr h)]

theorem svdUsedCols_sig {m n : ℕ} (A : Matrix (Fin m) (Fin n) ℝ) (tol : ℝ) {k : Fin n}
    (hk : k ∈ svdUsedCols A tol) : tol < svdSig A k := by
  rw [svdUsedCols, List.mem_filter] at hk
  exact (of_decide_eq_true hk.2).2

/-! Concrete evaluations on the spec's determinant example
`exDet = [[2,1,3],[4,1,6],[1,-2,0]]` and on the tiny-scale diagonal
matrix `exTiny`. -/

theorem detRecursive_three (A : Matrix (Fin 3) (Fin 3) ℚ) :
    detRecursive 3 A = ∑ j : Fin 3, if |A 0 j| < EPSq then 0 else
      (-1:ℚ)^(j:ℕ) * A 0 j * detRecursive 2 (A.submatrix Fin.succ j.succAbove) := rfl

theorem detRecursive_exDet : detRecursive 3 exDet = 3 := by
  rw [detRecursive_three, Fin.sum_univ_three]
  norm_num [detRecursive, exDet, EPSq, Matrix.submatrix_apply, abs_of_pos, abs_of_neg,
    Fin.succAbove, Fin.lt_def, Fin.ext_iff, Matrix.vecHead, Matrix.vecTail]

theorem exDet_entries : ∀ i j, exDet i j = 0 ∨ EPSq ≤ |exDet i j| := by
  intro i j
  fin_cases i <;> fin_cases j <;>
    first
      | (left; norm_num [exDet, Matrix.vecHead, Matrix.vecTail]; done)
      | (right; norm_num [exDet, EPSq, Matrix.vecHead, Matrix.vecTail,
          abs_of_pos, abs_of_neg]; done)

theorem exDet_step0 : luStep (luInit exDet) 0 = exSt1 := by
  have hpiv : pivotSearch (luInit exDet).U 0 = 1 := by
    show pivotSearch exDet 0 = 1
    rw [pivotSearch, show ((List.finRange 3).drop ((0 : Fin 3) : ℕ)) = [0, 1, 2] from by decide,
      argmaxFold]
    simp only [List.foldl_cons, List.foldl_nil]
    norm_num [exDet, abs_of_pos, abs_of_neg, abs_of_nonneg]
  simp only [luStep, hpiv]
  rw [if_neg (by norm_num [luInit, exDet, EPSq, abs_of_pos] : ¬|(luInit exDet).U 1 0| < EPSq)]
  rw [if_neg (by decide : ¬(1 : Fin 3) = 0)]
  simp only [exSt1, LUState.mk.injEq]
  refine ⟨?_, ?_, ?_, by simp [luInit, exSt1]⟩
  · funext i j
    fin_cases i <;> fin_cases j <;>
      norm_num [rowSwap, luInit, exSt1, Equiv.swap_apply_def, Matrix.one_apply, Fin.ext_iff,
        Matrix.vecHead, Matrix.vecTail]
  · funext i j
    fin_cases i <;> fin_cases j <;>
      norm_num [elimL, swapLowerCols, rowSwap, luInit, exDet, exSt1, EPSq, Equiv.swap_apply_def,
        Matrix.one_apply, abs_of_pos, Fin.ext_iff, Matrix.vecHead, Matrix.vecTail]
  · funext i j
    fin_cases i <;> fin_cases j <;>
      norm_num [elimU, swapLowerCols, rowSwap, luInit, exDet, exSt1, EPSq, Equiv.swap_apply_def,
        abs_of_pos, Fin.ext_iff, Matrix.vecHead, Matrix.vecTail]

theorem exDet_step1 : luStep exSt1 1 = exSt2 := by
  have hpiv : pivotSearch exSt1.U 1 = 2 := by
    rw [pivotSearch, show ((List.finRange 3).drop ((1 : Fin 3) : ℕ)) = [1, 2] from by decide,
      argmaxFold]
    simp only [List.foldl_cons, List.foldl_nil]
    norm_num [exSt1, abs_of_pos, abs_of_neg, abs_of_nonneg]
  simp only [luStep, hpiv]
  rw [if_neg (by norm_num [exSt1, EPSq, abs_of_neg] : ¬|exSt1.U 2 1| < EPSq)]
  rw [if_neg (by decide : ¬(2 : Fin 3) = 1)]
  simp only [exSt2, LUState.mk.injEq]
  refine ⟨?_, ?_, ?_, by simp [exSt1, exSt2]⟩
  · funext i j
    fin_cases i <;> fin_cases j <;>
      norm_num [rowSwap, exSt1, exSt2, Equiv.swap_apply_def, Fin.ext_iff,
        Matrix.vecHead, Matrix.vecTail]
  · funext i j
    fin_cases i <;> fin_cases j <;>
      norm_num [elimL, swapLowerCols, rowSwap, exSt1, exSt2, EPSq, Equiv.swap_apply_def,
        abs_of_neg, Fin.ext_iff, Matrix.vecHead, Matrix.vecTail]
  · funext i j
    fin_cases i <;> fin_cases j <;>
      norm_num [elimU, swapLowerCols, rowSwap, exSt1, exSt2, EPSq, Equiv.swap_apply_def,
        abs_of_neg, Fin.ext_iff, Matrix.vecHead, Matrix.vecTail]

theorem exDet_step2 : luStep exSt2 2 = exSt2 := by
  have hpiv : pivotSearch exSt2.U 2 = 2 := by
    rw [pivotSearch, show ((List.finRange 3).drop ((2 : Fin 3) : ℕ)) = [2] from by decide,
      argmaxFold]
    simp only [List.foldl_cons, List.foldl_nil, lt_irrefl, if_false]
  simp only [luStep, hpiv]
  rw [if_neg (by norm_num [exSt2, EPSq, abs_of_neg] : ¬|exSt2.U 2 2| < EPSq)]
  simp only [ite_true]
  conv_rhs => rw [show exSt2 = (⟨exSt2.P, exSt2.L, exSt2.U, exSt2.swaps⟩ : LUState 3) from rfl]
  simp only [LUState.mk.injEq]
  refine ⟨trivial, ?_, ?_, trivial⟩
  · funext i j
    fin_cases i <;> fin_cases j <;>
      norm_num [elimL, exSt2, EPSq, abs_of_neg, Fin.ext_iff, Matrix.vecHead, Matrix.vecTail]
  · funext i j
    fin_cases i <;> fin_cases j <;>
      norm_num [elimU, exSt2, EPSq, abs_of_neg, Fin.ext_iff, Matrix.vecHead, Matrix.vecTail]

theorem exDet_lu : luDecompose exDet = exSt2 := by
  rw [luDecompose, show (List.finRange 3) = [0, 1, 2] from by decide]
  simp only [List.foldl_cons, List.foldl_nil]
  rw [exDet_step0, exDet_step1, exDet_step2]

theorem exDet_detViaLu : detViaLu exDet = 3 := by
  rw [detViaLu]
  rw [exDet_lu]
  norm_num [exSt2, Fin.prod_univ_three, Matrix.vecHead, Matrix.vecTail]

theorem exDet_lowU : ∀ i j : Fin 3, (j : ℕ) < (i : ℕ) → (luDecompose exDet).U i j = 0 := by
  intro i j hji
  rw [exDet_lu]
  fin_cases i <;> fin_cases j <;>
    first
      | exact absurd hji (by decide)
      | norm_num [exSt2, Matrix.vecHead, Matrix.vecTail]

/-! The claims. -/

/-- Claim C1, amended: for every square matrix `lu_decompose_partial_pivot`
returns `L` unit lower triangular (also after row swaps) and `U` with every
entry strictly below the diagonal below `EPS` in magnitude — including when
a near-zero pivot column is skipped.  The `P·A ≈ L·U` bound within the
`1e-8` Frobenius tolerance (stated squared, over the exact model) holds for
sizes `n ≤ 10`; it is not universal: the residues left by a skipped
sub-threshold column accumulate with the size, and `exBig` (40×40) drives
the residual above `1e-8` (counterexample below). -/
theorem claim_C1_lu_residual_and_shape {n : ℕ} (A : Matrix (Fin n) (Fin n) ℚ) :
    (∀ i, (luDecompose A).L i i = 1) ∧
    (∀ i j : Fin n, (i : ℕ) < (j : ℕ) → (luDecompose A).L i j = 0) ∧
    (∀ i j : Fin n, (j : ℕ) < (i : ℕ) → |(luDecompose A).U i j| < EPSq) ∧
    (n ≤ 10 →
      frobSq ((luDecompose A).P * A - (luDecompose A).L * (luDecompose A).U) ≤
        (1e-8 : ℚ) ^ 2) := by
  have hinv := luDecompose_inv A
  refine ⟨hinv.diagL, hinv.upperL, fun i j hj => hinv.lowU i j j.isLt hj, fun hn => ?_⟩
  have hent : ∀ i j, (((luDecompose A).P * A - (luDecompose A).L * (luDecompose A).U) i j) ^ 2 ≤
      ((n : ℚ) * EPSq) ^ 2 := by
    intro i j
    have h1 := hinv.entryBound i j
    have hswap : ((luDecompose A).P * A - (luDecompose A).L * (luDecompose A).U) i j =
        -(((luDecompose A).L * (luDecompose A).U - (luDecompose A).P * A) i j) := by
      simp [Matrix.sub_apply]
    rw [hswap, neg_pow, show ((-1:ℚ))^2 = 1 from by norm_num, one_mul]
    have h2 := pow_le_pow_left (abs_nonneg _) h1 2
    rwa [sq_abs] at h2
  have hsum : frobSq ((luDecompose A).P * A - (luDecompose A).L * (luDecompose A).U) ≤
      (n : ℚ) * ((n : ℚ) * ((n : ℚ) * EPSq) ^ 2) := by
    rw [frobSq]
    calc ∑ i, ∑ j, (((luDecompose A).P * A - (luDecompose A).L * (luDecompose A).U) i j) ^ 2 ≤
        ∑ _i : Fin n, ∑ _j : Fin n, ((n : ℚ) * EPSq) ^ 2 :=
          Finset.sum_le_sum fun i _ => Finset.sum_le_sum fun j _ => hent i j
      _ = (n : ℚ) * ((n : ℚ) * ((n : ℚ) * EPSq) ^ 2) := by
          simp [Finset.sum_const, Finset.card_univ, nsmul_eq_mul]
  refine le_trans hsum ?_
  have h0 : (0 : ℚ) ≤ (n : ℚ) := Nat.cast_nonneg n
  have hn10 : (n : ℚ) ≤ 10 := by exact_mod_cast hn
  have h4 : (n : ℚ) ^ 4 ≤ 10 ^ 4 := pow_le_pow_left h0 hn10 4
  calc (n : ℚ) * ((n : ℚ) * ((n : ℚ) * EPSq) ^ 2) = (n : ℚ) ^ 4 * EPSq ^ 2 := by ring
    _ ≤ 10 ^ 4 * EPSq ^ 2 := mul_le_mul_of_nonneg_right h4 (by positivity)
    _ ≤ (1e-8 : ℚ) ^ 2 := by norm_num [EPSq]

/-- Witness for C1 at the concrete `2×2` matrix `exSkip`, whose first pivot
column sits below the skip threshold. -/
theorem claim_C1_witness :
    (∀ i, (luDecompose exSkip).L i i = 1) ∧
    (∀ i j : Fin 2, (i : ℕ) < (j : ℕ) → (luDecompose exSkip).L i j = 0) ∧
    (∀ i j : Fin 2, (j : ℕ) < (i : ℕ) → |(luDecompose exSkip).U i j| < EPSq) ∧
    (2 ≤ 10 →
      frobSq ((luDecompose exSkip).P * exSkip -
        (luDecompose exSkip).L * (luDecompose exSkip).U) ≤ (1e-8 : ℚ) ^ 2) :=
  claim_C1_lu_residual_and_shape exSkip

/-! Exact evaluation of both determinant algorithms on the tiny-scale
diagonal matrix `exTiny = diag(5·10⁻¹¹)`: the recursion skips every term
and returns `0`, while the LU route skips every pivot column, leaves `U`
untouched, and returns the true nonzero determinant. -/

theorem exTiny_detRecursive : detRecursive 3 exTiny = 0 := by
  rw [detRecursive_three, Fin.sum_univ_three]
  norm_num [exTiny, EPSq, Matrix.vecHead, Matrix.vecTail, abs_of_pos, abs_of_nonneg]

theorem exTiny_lu : luDecompose exTiny = luInit exTiny := by
  have hall : ∀ i j : Fin 3, |exTiny i j| < EPSq := by
    intro i j
    fin_cases i <;> fin_cases j <;>
      norm_num [exTiny, EPSq, Matrix.vecHead, Matrix.vecTail, abs_of_pos, abs_of_nonneg]
  have hstep : ∀ k : Fin 3, luStep (luInit exTiny) k = luInit exTiny := by
    intro k
    simp only [luStep, luInit]
    rw [if_pos (hall _ _)]
  rw [luDecompose, show (List.finRange 3) = [0, 1, 2] from by decide]
  simp only [List.foldl_cons, List.foldl_nil]
  rw [hstep, hstep, hstep]

theorem exTiny_detViaLu :
    detViaLu exTiny = 125/1000000000000000000000000000000000 := by
  simp only [detViaLu]
  rw [exTiny_lu]
  simp only [luInit]
  norm_num [exTiny, Fin.prod_univ_three, Matrix.vecHead, Matrix.vecTail]

/-- Counterexample to C4: on the perfectly conditioned (scalar multiple of
the identity) 3×3 matrix `exTiny = diag(5·10⁻¹¹)` — well inside the claim's
"well-conditioned, size at most 5" scope — `det_recursive` returns `0`
while `det_via_lu` returns the true determinant `1.25·10⁻³¹`, so the two
algorithms do not agree within any relative tolerance, let alone `1e-6`. -/
theorem claim_C4_counterexample :
    detRecursive 3 exTiny = 0 ∧ detViaLu exTiny ≠ 0 ∧
    1e-6 * |detViaLu exTiny| < |detRecursive 3 exTiny - detViaLu exTiny| := by
  refine ⟨exTiny_detRecursive, ?_, ?_⟩
  · rw [exTiny_detViaLu]
    norm_num
  · rw [exTiny_detRecursive, exTiny_detViaLu, zero_sub, abs_neg,
      abs_of_pos (by norm_num)]
    norm_num

/-- Claim C4, amended: the agreement is not universal over well-conditioned
matrices (see the counterexample), but it is exact — both algorithms
compute `det A` — when every entry of `A` clears the `det_recursive` skip
threshold (is `0` or at least `EPS` in magnitude) and no pivot column of
the LU run was skipped (the final `U` is exactly upper triangular). -/
theorem claim_C4_det_agreement {n : ℕ} (A : Matrix (Fin n) (Fin n) ℚ)
    (hA : ∀ i j, A i j = 0 ∨ EPSq ≤ |A i j|)
    (hU : ∀ i j : Fin n, (j : ℕ) < (i : ℕ) → (luDecompose A).U i j = 0) :
    detRecursive n A = detViaLu A := by
  rw [detRecursive_eq_det n A hA, detViaLu_eq_det A hU]

/-- Witness for C4: the spec's example `A = [[2,1,3],[4,1,6],[1,-2,0]]`
satisfies both hypotheses, the algorithms agree there, and the common
value is the spec's `3`. -/
theorem claim_C4_witness :
    (∀ i j, exDet i j = 0 ∨ EPSq ≤ |exDet i j|) ∧
    (∀ i j : Fin 3, (j : ℕ) < (i : ℕ) → (luDecompose exDet).U i j = 0) ∧
    detRecursive 3 exDet = detViaLu exDet ∧ detViaLu exDet = 3 :=
  ⟨exDet_entries, exDet_lowU,
    claim_C4_det_agreement exDet exDet_entries exDet_lowU, exDet_detViaLu⟩

/-- Counterexample to C9: on the uniformly tiny (but perfectly conditioned)
diagonal matrix `exTiny = diag(5·10⁻¹¹)`, `det_recursive` skips every term
of the expansion — the skipped leading entries are not negligible relative
to the matrix scale, and the computed determinant `0` differs from the true
nonzero determinant by 100% of its value. -/
theorem claim_C9_counterexample :
    detRecursive 3 exTiny = 0 ∧ exTiny.det ≠ 0 := by
  constructor
  · rw [detRecursive_three, Fin.sum_univ_three]
    norm_num [exTiny, EPSq, Matrix.vecHead, Matrix.vecTail, abs_of_pos, abs_of_nonneg]
  · rw [Matrix.det_fin_three]
    norm_num [exTiny, Matrix.vecHead, Matrix.vecTail]

/-- Claim C9, amended: the skip threshold is absolute, not relative to the
matrix scale, so skipping is harmless exactly when every entry is `0` or
clears `EPS`: under that hypothesis `det_recursive` computes the true
determinant exactly. -/
theorem claim_C9_skip_exactness {n : ℕ} (A : Matrix (Fin n) (Fin n) ℚ)
    (hA : ∀ i j, A i j = 0 ∨ EPSq ≤ |A i j|) :
    detRecursive n A = A.det :=
  detRecursive_eq_det n A hA

/-- Witness for the amended C9 at the spec's determinant example. -/
theorem claim_C9_witness :
    (∀ i j, exDet i j = 0 ∨ EPSq ≤ |exDet i j|) ∧ detRecursive 3 exDet = exDet.det :=
  ⟨exDet_entries, claim_C9_skip_exactness exDet exDet_entries⟩

/-! Small evaluation helpers over `ℝ` for the Jacobi/SVD/PCA claims. -/

theorem frobNorm_zeroM {m n : ℕ} : frobNorm (0 : Matrix (Fin m) (Fin n) ℝ) = 0 := by
  simp [frobNorm, frobSq]

theorem offSq_zeroM {n : ℕ} : offSq (0 : Matrix (Fin n) (Fin n) ℝ) = 0 := by
  simp [offSq, offPart, frobSq]

theorem offNorm_zeroM {n : ℕ} : offNorm (0 : Matrix (Fin n) (Fin n) ℝ) = 0 := by
  rw [offNorm, offSq_zeroM, Real.sqrt_zero]

theorem jacobiLoop_zeroM {n : ℕ} (m : ℕ) (tol : ℝ) (htol : 0 < tol) :
    jacobiLoop (0 : Matrix (Fin n) (Fin n) ℝ) m tol = (0, 1) := by
  rw [jacobiLoop]
  apply Function.iterate_fixed
  apply jacobiBody_fixed
  show offNorm (0 : Matrix (Fin n) (Fin n) ℝ) < tol
  rw [offNorm_zeroM]
  exact htol

theorem offSq_two (S : Matrix (Fin 2) (Fin 2) ℝ) :
    offSq S = S 0 1 ^ 2 + S 1 0 ^ 2 := by
  simp [offSq, offPart, frobSq, Fin.sum_univ_two, Matrix.sub_apply,
    Matrix.diagonal_apply_eq, Matrix.diagonal_apply_ne, Matrix.diagonal]

/-- Counterexample to C5: on `exJac = [[9e-11, 1e-12], [1e-12, 0]]`, whose
diagonal entries differ by less than `EPS` without being equal, the π/4
rotation does not zero the pivot entry (the new `S[0,1]` is `4.5e-11`) and
the off-diagonal mass strictly increases in one iteration of the Jacobi
loop body. -/
theorem claim_C5_counterexample :
    (jacobiBody 1e-12 (exJac, (1 : Matrix (Fin 2) (Fin 2) ℝ))).1 0 1 ≠ 0 ∧
    offSq exJac < offSq (jacobiBody 1e-12 (exJac, (1 : Matrix (Fin 2) (Fin 2) ℝ))).1 := by
  have hex00 : exJac 0 0 = 9e-11 := by norm_num [exJac, Matrix.vecHead, Matrix.vecTail]
  have hex01 : exJac 0 1 = 1e-12 := by norm_num [exJac, Matrix.vecHead, Matrix.vecTail]
  have hex10 : exJac 1 0 = 1e-12 := by norm_num [exJac, Matrix.vecHead, Matrix.vecTail]
  have hex11 : exJac 1 1 = 0 := by norm_num [exJac, Matrix.vecHead, Matrix.vecTail]
  have hsym : exJac 1 0 = exJac 0 1 := by rw [hex01, hex10]
  have hij : (0 : Fin 2) ≠ 1 := by decide
  have hoffex : offSq exJac = 2e-24 := by
    rw [offSq_two, hex01, hex10]
    norm_num
  have h2 : (2 : ℕ) ≤ 2 := le_refl 2
  have hoff : ¬ offNorm exJac < 1e-12 := by
    rw [not_lt, offNorm, hoffex]
    rw [Real.le_sqrt (by norm_num : (0:ℝ) ≤ 1e-12)] <;> norm_num
  have hpiv : jacobiPivot exJac h2 = (0, 1, 1e-12) := by
    rw [jacobiPivot, show jacobiPairs 2 = [(0, 1)] from by decide]
    simp only [List.foldl_cons, List.foldl_nil]
    rw [if_pos (by rw [hex01]; norm_num : (((⟨0, by omega⟩ : Fin 2), (⟨1, by omega⟩ : Fin 2),
      (0:ℝ)) : Fin 2 × Fin 2 × ℝ).2.2 < |exJac 0 1|), hex01]
    norm_num
  have hθ : rotAngle exJac 0 1 = Real.pi / 4 := by
    rw [rotAngle, if_pos]
    rw [hex00, hex11, EPS]
    rw [abs_of_pos (by norm_num)]
    norm_num
  have hstep : jacobiBody 1e-12 (exJac, (1 : Matrix (Fin 2) (Fin 2) ℝ)) =
      jacobiStepSQ (exJac, 1) 0 1 := by
    rw [jacobiBody]
    rw [if_neg hoff, dif_pos h2, hpiv]
    rw [if_neg (by norm_num : ¬(((0 : Fin 2), (1 : Fin 2), (1e-12 : ℝ)) :
      Fin 2 × Fin 2 × ℝ).2.2 < 1e-12)]
  have hcs : Real.cos (rotAngle exJac 0 1) ^ 2 + Real.sin (rotAngle exJac 0 1) ^ 2 = 1 :=
    Real.cos_sq_add_sin_sq _
  have hcsval : Real.cos (rotAngle exJac 0 1) * Real.sin (rotAngle exJac 0 1) = 1/2 := by
    rw [hθ, Real.cos_pi_div_four, Real.sin_pi_div_four]
    rw [div_mul_div_comm, Real.mul_self_sqrt (by norm_num : (0:ℝ) ≤ 2)]
    norm_num
  have hc2s2 : Real.cos (rotAngle exJac 0 1) ^ 2 - Real.sin (rotAngle exJac 0 1) ^ 2 = 0 := by
    rw [hθ]
    rw [Real.cos_pi_div_four, Real.sin_pi_div_four]
    ring
  have hnew : (((rotG 0 1 (Real.cos (rotAngle exJac 0 1)) (Real.sin (rotAngle exJac 0 1)))ᵀ *
      exJac * rotG 0 1 (Real.cos (rotAngle exJac 0 1)) (Real.sin (rotAngle exJac 0 1)) :
      Matrix (Fin 2) (Fin 2) ℝ)) 0 1 = 4.5e-11 := by
    rw [rot_entry_ij hij _ _ exJac hsym, hex00, hex11, hex01]
    linear_combination (9e-11 : ℝ) * hcsval + (1e-12 : ℝ) * hc2s2
  have hroff := rot_offSq hij hcs exJac hsym
  rw [hnew, hex01, hoffex] at hroff
  constructor
  · rw [hstep]
    show (((rotG 0 1 (Real.cos (rotAngle exJac 0 1)) (Real.sin (rotAngle exJac 0 1)))ᵀ *
      exJac * rotG 0 1 (Real.cos (rotAngle exJac 0 1)) (Real.sin (rotAngle exJac 0 1)) :
      Matrix (Fin 2) (Fin 2) ℝ)) 0 1 ≠ 0
    rw [hnew]
    norm_num
  · rw [hstep, hoffex]
    show (2e-24 : ℝ) < offSq ((rotG 0 1 (Real.cos (rotAngle exJac 0 1))
      (Real.sin (rotAngle exJac 0 1)))ᵀ * exJac *
      rotG 0 1 (Real.cos (rotAngle exJac 0 1)) (Real.sin (rotAngle exJac 0 1)))
    nlinarith [hroff]

/-- Claim C5, amended: the chosen rotation zeroes `S[i,j]` and `S[j,i]` and
does not increase the off-diagonal Frobenius mass in the `atan2` branch
(diagonal entries at least `EPS` apart) and in the π/4 branch when the two
diagonal entries are exactly equal.  (The counterexample above shows the
remaining π/4 sub-branch — diagonals unequal but within `EPS` — genuinely
fails both parts.) -/
theorem claim_C5_rotation_effect {n : ℕ} {i j : Fin n} (hij : i ≠ j)
    (S : Matrix (Fin n) (Fin n) ℝ) (hsym : S j i = S i j)
    (hbranch : EPS ≤ |S i i - S j j| ∨ S i i = S j j) :
    ((rotG i j (Real.cos (rotAngle S i j)) (Real.sin (rotAngle S i j)))ᵀ * S *
        rotG i j (Real.cos (rotAngle S i j)) (Real.sin (rotAngle S i j))) i j = 0 ∧
    ((rotG i j (Real.cos (rotAngle S i j)) (Real.sin (rotAngle S i j)))ᵀ * S *
        rotG i j (Real.cos (rotAngle S i j)) (Real.sin (rotAngle S i j))) j i = 0 ∧
    offSq ((rotG i j (Real.cos (rotAngle S i j)) (Real.sin (rotAngle S i j)))ᵀ * S *
        rotG i j (Real.cos (rotAngle S i j)) (Real.sin (rotAngle S i j))) ≤ offSq S := by
  have hz := rotAngle_zero_entry hij S hsym hbranch
  have hz' : ((rotG i j (Real.cos (rotAngle S i j)) (Real.sin (rotAngle S i j)))ᵀ * S *
      rotG i j (Real.cos (rotAngle S i j)) (Real.sin (rotAngle S i j))) j i = 0 := by
    rw [rot_entry_ji hij _ _ S hsym, ← rot_entry_ij hij _ _ S hsym]
    exact hz
  refine ⟨hz, hz', ?_⟩
  have hoff := rot_offSq hij (Real.cos_sq_add_sin_sq (rotAngle S i j)) S hsym
  rw [hz] at hoff
  nlinarith [sq_nonneg (S i j)]

/-- Witness for the amended C5 at `exRot = [[1,2],[2,5]]` (diagonal gap `4`,
well inside the `atan2` branch). -/
theorem claim_C5_witness :
    ((0 : Fin 2) ≠ 1) ∧ exRot 1 0 = exRot 0 1 ∧
    (EPS ≤ |exRot 0 0 - exRot 1 1| ∨ exRot 0 0 = exRot 1 1) ∧
    ((((rotG 0 1 (Real.cos (rotAngle exRot 0 1)) (Real.sin (rotAngle exRot 0 1)))ᵀ * exRot *
        rotG 0 1 (Real.cos (rotAngle exRot 0 1)) (Real.sin (rotAngle exRot 0 1)) :
        Matrix (Fin 2) (Fin 2) ℝ)) 0 1 = 0 ∧
      (((rotG 0 1 (Real.cos (rotAngle exRot 0 1)) (Real.sin (rotAngle exRot 0 1)))ᵀ * exRot *
        rotG 0 1 (Real.cos (rotAngle exRot 0 1)) (Real.sin (rotAngle exRot 0 1)) :
        Matrix (Fin 2) (Fin 2) ℝ)) 1 0 = 0 ∧
      offSq ((rotG 0 1 (Real.cos (rotAngle exRot 0 1)) (Real.sin (rotAngle exRot 0 1)))ᵀ *
          exRot *
          rotG 0 1 (Real.cos (rotAngle exRot 0 1)) (Real.sin (rotAngle exRot 0 1))) ≤
        offSq exRot) := by
  have hij : (0 : Fin 2) ≠ 1 := by decide
  have hsym : exRot 1 0 = exRot 0 1 := by
    norm_num [exRot, Matrix.vecHead, Matrix.vecTail]
  have hbranch : EPS ≤ |exRot 0 0 - exRot 1 1| ∨ exRot 0 0 = exRot 1 1 := by
    left
    rw [show exRot 0 0 - exRot 1 1 = (-4 : ℝ) from by
      norm_num [exRot, Matrix.vecHead, Matrix.vecTail]]
    rw [abs_of_neg (by norm_num), EPS]
    norm_num
  exact ⟨hij, hsym, hbranch, claim_C5_rotation_effect hij exRot hsym hbranch⟩

/-- Claim C6: the symmetry guard of `jacobi_eigen_symmetric` raises exactly
when `‖A - Aᵀ‖_F > 1e-8`, and within tolerance the call always returns the
iteration's result, whatever the iteration budget — exhausting `max_iter` is
not an error. -/
theorem claim_C6_symmetry_guard {n : ℕ} (A : Matrix (Fin n) (Fin n) ℝ)
    (maxIter : ℕ) (tol : ℝ) :
    ((∃ e, jacobiEigenSymmetric A maxIter tol = Except.error e) ↔
      1e-8 < frobNorm (A - Aᵀ)) ∧
    (jacobiEigenSymmetric A maxIter tol = Except.ok (jacobiRun A maxIter tol) ↔
      frobNorm (A - Aᵀ) ≤ 1e-8) := by
  constructor
  · constructor
    · rintro ⟨e, he⟩
      by_contra hle
      rw [jacobiEigenSymmetric, if_neg hle] at he
      exact absurd he (by simp)
    · intro h
      exact ⟨_, by rw [jacobiEigenSymmetric, if_pos h]⟩
  · constructor
    · intro h
      by_contra hlt
      rw [not_le] at hlt
      rw [jacobiEigenSymmetric, if_pos hlt] at h
      exact absurd h (by simp)
    · intro h
      rw [jacobiEigenSymmetric, if_neg (not_lt.mpr h)]

/-! Evaluation of the eigen sort on the tied pair `exTie`. -/

theorem exTie_argsort : argsortDesc exTie = [1, 0] := by
  simp only [argsortDesc]
  rw [show (List.finRange 2) = [0, 1] from by decide]
  simp only [List.insertionSort, List.orderedInsert]
  rw [if_pos (by norm_num [exTie] : exTie 0 ≤ exTie 1)]
  decide

theorem exTie_perm0 : sortPermFun exTie 0 = 1 := by
  have h2 : (argsortDesc exTie)[(0 : ℕ)]? = some (sortPermFun exTie 0) := by
    rw [sortPermFun, List.get_eq_getElem]
    exact List.getElem?_eq_getElem (by rw [argsortDesc_length]; norm_num)
  have h1 : (argsortDesc exTie)[(0 : ℕ)]? = some 1 := by
    rw [exTie_argsort]
    rfl
  exact (Option.some.inj (h1.symm.trans h2)).symm

/-- Counterexample to C7: on the tied eigenvalues `exTie = (5, 5)` the sort
reverses the stable ascending order, so the eigenvector columns of `exVecs`
come back swapped — ties are broken by *reversed* original order, not
original order. -/
theorem claim_C7_counterexample :
    (sortEigsDesc exTie exVecs).2 ≠ exVecs := by
  intro h
  have h00 := congrFun (congrFun h 0) 0
  simp only [sortEigsDesc] at h00
  rw [exTie_perm0] at h00
  norm_num [exVecs, Matrix.vecHead, Matrix.vecTail] at h00

/-- Claim C7, amended: `sort_eigs_desc` applies one and the same
permutation to the eigenvalues and to the eigenvector columns, and the
reordered eigenvalues are descending; the tie order is reversed-stable,
not stable (see the counterexample). -/
theorem claim_C7_sort_by_permutation {α : Type} [LinearOrder α] {m n : ℕ}
    (vals : Fin n → α) (vecs : Matrix (Fin m) (Fin n) α) :
    ∃ σ : Equiv.Perm (Fin n),
      (∀ k, (sortEigsDesc vals vecs).1 k = vals (σ k)) ∧
      (∀ r k, (sortEigsDesc vals vecs).2 r k = vecs r (σ k)) ∧
      (∀ k k' : Fin n, k ≤ k' →
        (sortEigsDesc vals vecs).1 k' ≤ (sortEigsDesc vals vecs).1 k) := by
  refine ⟨Equiv.ofBijective (sortPermFun vals)
    (Finite.injective_iff_bijective.mp (sortPermFun_injective vals)), ?_, ?_, ?_⟩
  · intro k
    rfl
  · intro r k
    rfl
  · intro k k' hkk
    exact sortPermFun_antitone vals hkk

/-- Claim C10: every division of the core is guarded — `normalize` returns
`v` unchanged below `EPS`; LU elimination leaves `L` and `U` unchanged (and
the whole pivot step is skipped) when the pivot is below `EPS`;
`svd_from_eig` divides by `σ_k` only for columns whose `σ_k` exceeds the
tolerance; the PCA ratio denominator is positive always. -/
theorem claim_C10_division_guards (mm n nn d : ℕ) :
    (∀ v : Fin mm → ℝ, vecNorm v < EPS → normalizeVec v = v) ∧
    (∀ (U : Matrix (Fin n) (Fin n) ℚ) (k : Fin n), |U k k| < EPSq →
      elimU U k = U ∧ ∀ L : Matrix (Fin n) (Fin n) ℚ, elimL L U k = L) ∧
    (∀ (st : LUState n) (k : Fin n), |st.U (pivotSearch st.U k) k| < EPSq →
      luStep st k = st) ∧
    (∀ (A : Matrix (Fin nn) (Fin d) ℝ) (tol : ℝ) (c : Fin d),
      c ∈ svdUsedCols A tol → tol < svdSig A c) ∧
    (∀ X : Matrix (Fin nn) (Fin d) ℝ, 0 < pcaTotal X) := by
  refine ⟨?_, ?_, ?_, fun A tol c hc => svdUsedCols_sig A tol hc, fun X => pcaTotal_pos X⟩
  · intro v hv
    rw [normalizeVec, if_pos hv]
  · intro U k hk
    exact ⟨by rw [elimU, if_pos hk], fun L => by rw [elimL, if_pos hk]⟩
  · intro st k hk
    simp only [luStep]
    rw [if_pos hk]

/-! Evaluation of the PCA pipeline on the degenerate-variance example
`exPca`. -/

theorem offSq_dim_one (S : Matrix (Fin 1) (Fin 1) ℝ) : offSq S = 0 := by
  simp [offSq, offPart, frobSq, Fin.sum_univ_one, Matrix.diagonal_apply_eq]

theorem offNorm_dim_one (S : Matrix (Fin 1) (Fin 1) ℝ) : offNorm S = 0 := by
  rw [offNorm, offSq_dim_one, Real.sqrt_zero]

theorem jacobiLoop_dim_one (S : Matrix (Fin 1) (Fin 1) ℝ) (m : ℕ) (tol : ℝ)
    (htol : 0 < tol) : jacobiLoop S m tol = (S, 1) := by
  rw [jacobiLoop]
  apply Function.iterate_fixed
  apply jacobiBody_fixed
  show offNorm S < tol
  rw [offNorm_dim_one]
  exact htol

theorem exPca_mean : pcaMean exPca 0 = 5e-7 := by
  rw [pcaMean, Fin.sum_univ_two]
  norm_num [exPca, Matrix.vecHead, Matrix.vecTail]

theorem exPca_gram : ∀ a b : Fin 1,
    ((pcaCentered exPca)ᵀ * pcaCentered exPca) a b = 5e-13 := by
  intro a b
  rw [Subsingleton.elim a 0, Subsingleton.elim b 0]
  rw [Matrix.mul_apply, Fin.sum_univ_two]
  simp only [Matrix.transpose_apply, pcaCentered]
  rw [exPca_mean]
  norm_num [exPca, Matrix.vecHead, Matrix.vecTail]

theorem exPca_val : ∀ k : Fin 1, (svdVals (pcaCentered exPca)).1 k = 5e-13 := by
  intro k
  simp only [svdVals, sortEigsDesc, jacobiRun]
  rw [jacobiLoop_dim_one _ _ _ (by norm_num)]
  exact exPca_gram _ _

theorem exPca_sig : ∀ k : Fin 1, svdSig (pcaCentered exPca) k = Real.sqrt 5e-13 := by
  intro k
  rw [svdSig, exPca_val k, max_eq_left (by norm_num : (0:ℝ) ≤ 5e-13)]

theorem exPca_var : ∀ t : Fin (min 2 1), pcaVar exPca t = 5e-13 := by
  intro t
  rw [pcaVar, pcaSing_eq]
  simp only [exPca_sig]
  rw [if_pos (by rw [Real.lt_sqrt (by norm_num : (0:ℝ) ≤ 1e-10)]; norm_num)]
  exact Real.sq_sqrt (by norm_num)

theorem exPca_total_sum : (∑ t, pcaVar exPca t) = 5e-13 := by
  rw [Finset.sum_congr rfl fun t _ => exPca_var t]
  rw [Finset.sum_const, Finset.card_univ]
  norm_num [Fintype.card_fin]

/-- Counterexample to C8: (a) the ratio list of `pca_via_svd(X, k)` has
length `min(k, min(n, d))`, not always `k` — for a `2×3` data matrix and
`k = 3` it has two entries; (b) with total variance positive but below
`EPS` (the data `exPca`), the denominator is replaced by `1`, yet the
ratio is the raw variance `5·10⁻¹³`, not `0`. -/
theorem claim_C8_counterexample :
    (pcaViaSvd (0 : Matrix (Fin 2) (Fin 3) ℝ) 3).explainedVarianceRatio.length ≠ 3 ∧
    (∑ t, pcaVar exPca t) ≤ EPS ∧
    (pcaViaSvd exPca 1).explainedVarianceRatio ≠ [0] := by
  refine ⟨?_, ?_, ?_⟩
  · simp only [pcaViaSvd]
    rw [List.length_take, List.length_map, List.length_finRange]
    norm_num
  · rw [exPca_total_sum, EPS]
    norm_num
  · intro h
    have hget := pcaRatio_getElem exPca 1 ⟨0, by norm_num⟩ (by norm_num)
    have hlist : ((List.finRange (min 2 1)).map (pcaRatioFun exPca)).take 1 =
        (pcaViaSvd exPca 1).explainedVarianceRatio := rfl
    rw [hlist, h] at hget
    rw [exPca_var, pcaTotal_degenerate exPca (by rw [exPca_total_sum, EPS]; norm_num)] at hget
    norm_num at hget

/-- Claim C8, amended: the ratio list has length `min(k, min(n, d))` (so
exactly `k` when `k ≤ n` and `k ≤ d`), its `t`-th entry is
`σ_t² / total`, it is non-increasing and sums to at most `1`; when the
total variance is at most `EPS` the denominator used is `1` (so each ratio
is the raw variance `σ_t²`, zero only if `σ_t` is). -/
theorem claim_C8_ratio_properties {nn d : ℕ} (X : Matrix (Fin nn) (Fin d) ℝ) (k : ℕ) :
    (pcaViaSvd X k).explainedVarianceRatio.length = min k (min nn d) ∧
    (∀ t : Fin (min nn d), (t : ℕ) < k →
      (pcaViaSvd X k).explainedVarianceRatio[(t : ℕ)]? =
        some (pcaVar X t / pcaTotal X)) ∧
    (pcaViaSvd X k).explainedVarianceRatio.Pairwise (fun a b => b ≤ a) ∧
    (pcaViaSvd X k).explainedVarianceRatio.sum ≤ 1 ∧
    ((∑ t, pcaVar X t) ≤ EPS → pcaTotal X = 1) ∧
    (k ≤ nn → k ≤ d → (pcaViaSvd X k).explainedVarianceRatio.length = k) := by
  have hlist : (pcaViaSvd X k).explainedVarianceRatio =
      ((List.finRange (min nn d)).map (pcaRatioFun X)).take k := rfl
  refine ⟨?_, ?_, ?_, ?_, pcaTotal_degenerate X, ?_⟩
  · rw [hlist, List.length_take, List.length_map, List.length_finRange]
  · intro t ht
    rw [hlist]
    exact pcaRatio_getElem X k t ht
  · rw [hlist]
    exact pcaRatio_pairwise X k
  · rw [hlist]
    exact pcaRatio_sum_le_one X k
  · intro h1 h2
    rw [hlist, List.length_take, List.length_map, List.length_finRange]
    omega

/-! Closed-form LU trajectory of `exBig`: column `0` is skipped (all its
entries are `9.9e-11 < EPS`), every later pivot is on the diagonal with
value `1` and all elimination multipliers equal `1`, so `L` and `U` follow
the closed forms `exBigL`/`exBigU` and the skipped column of `L·U`
accumulates one sub-threshold residue per processed row. -/

theorem argmaxFold_const {α β : Type} [LinearOrder β] (f : α → β) :
    ∀ (l : List α) (b : α), (∀ x ∈ l, f x ≤ f b) → argmaxFold f l b = b := by
  intro l
  induction l with
  | nil =>
    intro b _
    rfl
  | cons a t ih =>
    intro b h
    rw [argmaxFold, List.foldl_cons, if_neg (not_lt.mpr (h a (List.mem_cons_self a t)))]
    have h2 := ih b fun x hx => h x (List.mem_cons_of_mem a hx)
    rw [argmaxFold] at h2
    exact h2

theorem exBig_init : luInit exBig = ⟨1, exBigL 0, exBigU 0, 0⟩ := by
  rw [luInit]
  simp only [LUState.mk.injEq]
  refine ⟨trivial, ?_, ?_, trivial⟩
  · funext i j
    simp only [exBigL]
    rw [Matrix.one_apply]
    by_cases h : i = j
    · rw [if_pos h, if_pos h]
    · rw [if_neg h, if_neg h, if_neg (by omega)]
  · funext i j
    simp only [exBig, exBigU]
    by_cases h0 : (j : ℕ) = 0
    · rw [if_pos h0, if_pos h0]
    · rw [if_neg h0, if_neg h0, if_neg (by omega : ¬(j : ℕ) < 0)]

theorem exBigL_zero_one : exBigL 0 = exBigL 1 := by
  funext i j
  simp only [exBigL]
  by_cases h : i = j
  · rw [if_pos h, if_pos h]
  · rw [if_neg h, if_neg h, if_neg (by omega), if_neg (by omega)]

theorem exBigU_zero_one : exBigU 0 = exBigU 1 := by
  funext i j
  simp only [exBigU]
  by_cases h0 : (j : ℕ) = 0
  · rw [if_pos h0, if_pos h0]
  · rw [if_neg h0, if_neg h0, if_neg (by omega : ¬(j : ℕ) < 0),
      if_neg (by omega : ¬(j : ℕ) < 1)]

theorem exBig_step0 (h0 : 0 < 40) :
    luStep (⟨1, exBigL 0, exBigU 0, 0⟩ : LUState 40) ⟨0, h0⟩ =
      ⟨1, exBigL 1, exBigU 1, 0⟩ := by
  have hentry : ∀ p : Fin 40, exBigU 0 p ⟨0, h0⟩ = 99/1000000000000 := by
    intro p
    simp [exBigU]
  simp only [luStep]
  rw [if_pos (by rw [hentry, abs_of_pos (by norm_num)]; norm_num [EPSq] :
    |exBigU 0 (pivotSearch (exBigU 0) ⟨0, h0⟩) ⟨0, h0⟩| < EPSq)]
  rw [exBigL_zero_one, exBigU_zero_one]

theorem exBig_colm (m : ℕ) (hm : m < 40) (r : Fin 40) (hm1 : 1 ≤ m) :
    exBigU m r ⟨m, hm⟩ = if m ≤ (r : ℕ) then 1 else 0 := by
  have hmv : ((⟨m, hm⟩ : Fin 40) : ℕ) = m := rfl
  simp only [exBigU, hmv]
  rw [if_neg (by omega), if_neg (by omega : ¬m < m)]

theorem exBig_step (m : ℕ) (hm1 : 1 ≤ m) (hm : m < 40) :
    luStep (⟨1, exBigL m, exBigU m, 0⟩ : LUState 40) ⟨m, hm⟩ =
      ⟨1, exBigL (m + 1), exBigU (m + 1), 0⟩ := by
  have hmv : ((⟨m, hm⟩ : Fin 40) : ℕ) = m := rfl
  have hpiv : pivotSearch (exBigU m) ⟨m, hm⟩ = ⟨m, hm⟩ := by
    rw [pivotSearch]
    apply argmaxFold_const
    intro x _
    show |exBigU m x ⟨m, hm⟩| ≤ |exBigU m ⟨m, hm⟩ ⟨m, hm⟩|
    rw [exBig_colm m hm x hm1, exBig_colm m hm ⟨m, hm⟩ hm1,
      if_pos hmv.ge]
    by_cases hx : m ≤ (x : ℕ)
    · rw [if_pos hx]
    · rw [if_neg hx]
      norm_num
  have hguard : ¬ |exBigU m ⟨m, hm⟩ ⟨m, hm⟩| < EPSq := by
    rw [exBig_colm m hm ⟨m, hm⟩ hm1, if_pos hmv.ge]
    norm_num [EPSq]
  have hL : elimL (exBigL m) (exBigU m) ⟨m, hm⟩ = exBigL (m + 1) := by
    funext i j
    rw [elimL, if_neg hguard]
    show (if ((⟨m, hm⟩ : Fin 40) : ℕ) < (i : ℕ) ∧ (j : ℕ) = ((⟨m, hm⟩ : Fin 40) : ℕ) then
        exBigU m i ⟨m, hm⟩ / exBigU m ⟨m, hm⟩ ⟨m, hm⟩ else exBigL m i j) = exBigL (m + 1) i j
    simp only [hmv]
    by_cases hc : m < (i : ℕ) ∧ (j : ℕ) = m
    · rw [if_pos hc, exBig_colm m hm i hm1, exBig_colm m hm ⟨m, hm⟩ hm1,
        if_pos (le_of_lt hc.1), if_pos hmv.ge]
      have hij : ¬ i = j := by
        intro he
        have := congrArg Fin.val he
        omega
      simp only [exBigL]
      rw [if_neg hij, if_pos (by omega : 1 ≤ (j : ℕ) ∧ (j : ℕ) < m + 1 ∧ (j : ℕ) < (i : ℕ))]
      norm_num
    · rw [if_neg hc]
      simp only [exBigL]
      by_cases hd : i = j
      · rw [if_pos hd, if_pos hd]
      · rw [if_neg hd, if_neg hd]
        by_cases hji : 1 ≤ (j : ℕ) ∧ (j : ℕ) < m ∧ (j : ℕ) < (i : ℕ)
        · rw [if_pos hji, if_pos (by omega)]
        · have hnot : ¬(1 ≤ (j : ℕ) ∧ (j : ℕ) < m + 1 ∧ (j : ℕ) < (i : ℕ)) := by
            intro hcon
            rcases Nat.lt_succ_iff_lt_or_eq.mp hcon.2.1 with h | h
            · exact hji ⟨hcon.1, h, hcon.2.2⟩
            · exact hc ⟨by omega, h⟩
          rw [if_neg hji, if_neg hnot]
  have hU : elimU (exBigU m) ⟨m, hm⟩ = exBigU (m + 1) := by
    funext i j
    rw [elimU, if_neg hguard]
    show (if ((⟨m, hm⟩ : Fin 40) : ℕ) < (i : ℕ) ∧ ((⟨m, hm⟩ : Fin 40) : ℕ) ≤ (j : ℕ) then
        exBigU m i j - exBigU m i ⟨m, hm⟩ / exBigU m ⟨m, hm⟩ ⟨m, hm⟩ * exBigU m ⟨m, hm⟩ j
      else exBigU m i j) = exBigU (m + 1) i j
    simp only [hmv]
    by_cases hc : m < (i : ℕ) ∧ m ≤ (j : ℕ)
    · rw [if_pos hc, exBig_colm m hm i hm1, exBig_colm m hm ⟨m, hm⟩ hm1,
        if_pos (le_of_lt hc.1), if_pos hmv.ge]
      have hrow : exBigU m ⟨m, hm⟩ j = if (j : ℕ) = m then 1 else 0 := by
        simp only [exBigU, hmv]
        rw [if_neg (by omega : ¬(j : ℕ) = 0), if_neg (by omega : ¬(j : ℕ) < m)]
        by_cases hjm : (j : ℕ) = m
        · rw [if_pos hjm, if_pos (by omega)]
        · rw [if_neg hjm, if_neg (by omega)]
      rw [hrow]
      by_cases hjm : (j : ℕ) = m
      · rw [if_pos hjm]
        have hlhs : exBigU m i j = 1 := by
          simp only [exBigU]
          rw [if_neg (by omega : ¬(j : ℕ) = 0), if_neg (by omega : ¬(j : ℕ) < m),
            if_pos (by omega : (j : ℕ) ≤ (i : ℕ))]
        have hrhs : exBigU (m + 1) i j = 0 := by
          simp only [exBigU]
          rw [if_neg (by omega : ¬(j : ℕ) = 0), if_pos (by omega : (j : ℕ) < m + 1),
            if_neg (by
              intro he
              have := congrArg Fin.val he
              omega)]
        rw [hlhs, hrhs]
        norm_num
      · rw [if_neg hjm]
        have hsame : exBigU (m + 1) i j = exBigU m i j := by
          simp only [exBigU]
          rw [if_neg (by omega : ¬(j : ℕ) = 0), if_neg (by omega : ¬(j : ℕ) = 0),
            if_neg (by omega : ¬(j : ℕ) < m + 1), if_neg (by omega : ¬(j : ℕ) < m)]
        rw [hsame]
        ring
    · rw [if_neg hc]
      simp only [exBigU]
      by_cases hj0 : (j : ℕ) = 0
      · rw [if_pos hj0, if_pos hj0]
      · rw [if_neg hj0, if_neg hj0]
        by_cases hjm : (j : ℕ) < m
        · rw [if_pos hjm, if_pos (show (j : ℕ) < m + 1 from by omega)]
        · rw [if_neg hjm]
          by_cases hjm1 : (j : ℕ) < m + 1
          · have hjeq : (j : ℕ) = m := by omega
            have hile : (i : ℕ) ≤ m := by
              by_contra hgt
              exact hc ⟨by omega, by omega⟩
            rw [if_pos hjm1]
            by_cases him : (i : ℕ) = m
            · rw [if_pos (by omega : (j : ℕ) ≤ (i : ℕ)), if_pos (Fin.ext (by omega))]
            · rw [if_neg (by omega : ¬(j : ℕ) ≤ (i : ℕ)), if_neg (by
                intro he
                have := congrArg Fin.val he
                omega)]
          · rw [if_neg hjm1]
  simp only [luStep]
  rw [hpiv, if_neg hguard, if_pos rfl]
  rw [hL, hU]

theorem exBig_iter : ∀ m : ℕ, m ≤ 40 → luIter exBig m = ⟨1, exBigL m, exBigU m, 0⟩ := by
  intro m
  induction m with
  | zero =>
    intro _
    rw [show luIter exBig 0 = luInit exBig from rfl, exBig_init]
  | succ m ih =>
    intro hm
    have hmn : m < 40 := hm
    rw [luIter_succ exBig hmn, ih (le_of_lt hmn)]
    rcases Nat.eq_zero_or_pos m with rfl | hpos
    · exact exBig_step0 hmn
    · exact exBig_step m hpos hmn

theorem exBig_lu : luDecompose exBig = ⟨1, exBigL 40, exBigU 40, 0⟩ := by
  have heq : luDecompose exBig = luIter exBig 40 := by
    rw [luDecompose, luIter, List.take_of_length_le (by simp)]
  rw [heq]
  exact exBig_iter 40 le_rfl

theorem count_below (iv : ℕ) (hiv : iv ≤ 40) :
    (∑ t : Fin 40, if 1 ≤ (t : ℕ) ∧ (t : ℕ) < iv then (1:ℚ) else 0) = ((iv - 1 : ℕ) : ℚ) := by
  rw [Fin.sum_univ_eq_sum_range (fun t => if 1 ≤ t ∧ t < iv then (1:ℚ) else 0) 40]
  rw [Finset.sum_boole]
  rw [show (Finset.range 40).filter (fun t => 1 ≤ t ∧ t < iv) = Finset.Ico 1 iv from by
    ext x
    simp [Finset.mem_filter, Finset.mem_range, Finset.mem_Ico]
    omega]
  rw [Nat.card_Ico]

theorem exBigL_sum (i : Fin 40) :
    (∑ t, exBigL 40 i t) = 1 + (((i : ℕ) - 1 : ℕ) : ℚ) := by
  have hsplit : ∀ t : Fin 40, exBigL 40 i t =
      (if t = i then (1:ℚ) else 0) + (if 1 ≤ (t : ℕ) ∧ (t : ℕ) < (i : ℕ) then (1:ℚ) else 0) := by
    intro t
    simp only [exBigL]
    by_cases h1 : i = t
    · rw [if_pos h1, if_pos h1.symm,
        if_neg (by have := congrArg Fin.val h1; omega :
          ¬(1 ≤ (t : ℕ) ∧ (t : ℕ) < (i : ℕ)))]
      norm_num
    · rw [if_neg h1, if_neg (show ¬t = i from fun he => h1 he.symm)]
      by_cases h2 : 1 ≤ (t : ℕ) ∧ (t : ℕ) < (i : ℕ)
      · rw [if_pos (show 1 ≤ (t : ℕ) ∧ (t : ℕ) < 40 ∧ (t : ℕ) < (i : ℕ) from
            ⟨h2.1, t.isLt, h2.2⟩), if_pos h2]
        norm_num
      · rw [if_neg (show ¬(1 ≤ (t : ℕ) ∧ (t : ℕ) < 40 ∧ (t : ℕ) < (i : ℕ)) from
            fun hcon => h2 ⟨hcon.1, hcon.2.2⟩), if_neg h2]
        norm_num
  rw [Finset.sum_congr rfl fun t _ => hsplit t, Finset.sum_add_distrib]
  rw [Finset.sum_ite_eq' Finset.univ i fun _ => (1:ℚ), if_pos (Finset.mem_univ i)]
  rw [count_below (i : ℕ) (le_of_lt i.isLt)]

theorem exBig_LU_colzero (i : Fin 40) (j : Fin 40) (hj : (j : ℕ) = 0) :
    (exBigL 40 * exBigU 40) i j =
      (99/1000000000000 : ℚ) * (1 + (((i : ℕ) - 1 : ℕ) : ℚ)) := by
  have hU0 : ∀ t : Fin 40, exBigU 40 t j = 99/1000000000000 := by
    intro t
    simp only [exBigU]
    rw [if_pos hj]
  rw [Matrix.mul_apply, Finset.sum_congr rfl fun t _ => by rw [hU0 t],
    ← Finset.sum_mul, exBigL_sum]
  ring

theorem exBig_LU_col (i j : Fin 40) (hj : 1 ≤ (j : ℕ)) :
    (exBigL 40 * exBigU 40) i j = exBig i j := by
  have hUj : ∀ t : Fin 40, exBigU 40 t j = if t = j then 1 else 0 := by
    intro t
    simp only [exBigU]
    rw [if_neg (by omega), if_pos j.isLt]
  rw [Matrix.mul_apply, Finset.sum_congr rfl fun t _ => by
    rw [hUj t, mul_ite, mul_one, mul_zero]]
  rw [Finset.sum_ite_eq' Finset.univ j fun t => exBigL 40 i t, if_pos (Finset.mem_univ j)]
  simp only [exBigL, exBig]
  rw [if_neg (by omega : ¬(j : ℕ) = 0)]
  by_cases hd : i = j
  · rw [if_pos hd, if_pos (by have := congrArg Fin.val hd; omega : (j : ℕ) ≤ (i : ℕ))]
  · rw [if_neg hd]
    by_cases hji : (j : ℕ) < (i : ℕ)
    · rw [if_pos ⟨hj, j.isLt, hji⟩, if_pos (le_of_lt hji)]
    · rw [if_neg (fun hcon => hji hcon.2.2), if_neg (by
        have hvne : (i : ℕ) ≠ (j : ℕ) := fun he => hd (Fin.ext he)
        omega)]

theorem exBig_frobSq :
    frobSq ((luDecompose exBig).P * exBig -
        (luDecompose exBig).L * (luDecompose exBig).U) =
      (99/1000000000000 : ℚ) ^ 2 * 19019 := by
  rw [exBig_lu]
  show frobSq (1 * exBig - exBigL 40 * exBigU 40) = (99/1000000000000 : ℚ) ^ 2 * 19019
  rw [Matrix.one_mul]
  have hentry : ∀ i j : Fin 40, (exBig - exBigL 40 * exBigU 40) i j =
      if (j : ℕ) = 0 then -(99/1000000000000 : ℚ) * (((i : ℕ) - 1 : ℕ) : ℚ) else 0 := by
    intro i j
    rw [Matrix.sub_apply]
    by_cases hj : (j : ℕ) = 0
    · rw [if_pos hj, exBig_LU_colzero i j hj,
        show exBig i j = 99/1000000000000 from by simp only [exBig]; rw [if_pos hj]]
      ring
    · rw [if_neg hj, exBig_LU_col i j (by omega), sub_self]
  rw [frobSq]
  rw [Finset.sum_congr rfl fun i _ => Finset.sum_congr rfl fun j _ => by rw [hentry i j]]
  have hinner : ∀ i : Fin 40,
      (∑ j : Fin 40, (if (j : ℕ) = 0 then
        -(99/1000000000000 : ℚ) * (((i : ℕ) - 1 : ℕ) : ℚ) else 0) ^ 2) =
      (99/1000000000000 : ℚ) ^ 2 * ((((i : ℕ) - 1 : ℕ) : ℚ)) ^ 2 := by
    intro i
    rw [Finset.sum_eq_single (⟨0, by norm_num⟩ : Fin 40)
      (fun b _ hb => by
        rw [if_neg (fun h => hb (Fin.ext h))]
        norm_num)
      (fun h => absurd (Finset.mem_univ _) h)]
    rw [if_pos rfl]
    ring
  rw [Finset.sum_congr rfl fun i _ => hinner i, ← Finset.mul_sum]
  congr 1
  have hcast : ∀ i : Fin 40, ((((i : ℕ) - 1 : ℕ) : ℚ)) ^ 2 =
      (((((i : ℕ) - 1) ^ 2 : ℕ)) : ℚ) := by
    intro i
    push_cast
    ring
  rw [Finset.sum_congr rfl fun i _ => hcast i]
  rw [← Nat.cast_sum]
  rw [Fin.sum_univ_eq_sum_range (fun t => (t - 1) ^ 2) 40]
  norm_num [show (∑ t ∈ Finset.range 40, ((t - 1) ^ 2 : ℕ)) = 19019 from by decide]

/-- Counterexample to C1: on the `40×40` matrix `exBig`, whose skipped
first pivot column leaves one sub-threshold residue per processed row in
`L·U`, the Frobenius residual of `P·A - L·U` is `(9.9e-11)²·19019 ≈
(1.37e-8)²`, beyond the claimed `1e-8` tolerance.  The claim's bound is
therefore not universal over square matrices; it holds for the sizes
covered by the amended statement (`n ≤ 10`). -/
theorem claim_C1_counterexample :
    (1e-8 : ℚ) ^ 2 < frobSq ((luDecompose exBig).P * exBig -
      (luDecompose exBig).L * (luDecompose exBig).U) := by
  rw [exBig_frobSq]
  norm_num
